import Mathlib

/-!
CLI-Todo: the task list of `main.go`.

A shallow embedding of the program: the task repository (`AddTask`, `MarkTaskComplete`,
`DeleteTask`), the storage functions (`LoadTasks`, `SaveTasks`) and one iteration of the
command loop of `main`, followed by the properties proved about them.

Conventions of the embedding.

* A Go slice `[]Task` is a `List Task`; the functions return the value of the slice they
  return in Go (a nil slice and an empty slice are both `[]`).
* Go's `int` is taken to be 64 bits wide (as on every 64-bit platform). An id is an `Int`;
  the only arithmetic the program does on ids is `maxID + 1`, which is wrapped into the
  64-bit range by `wrapInt`.
* A Go string is a sequence of bytes. It is represented the way a `for range` loop reads
  it: as the list of its Unicode characters and of its stray bytes, those that are not
  part of a valid UTF-8 sequence (`GoString`). The library functions the program calls
  read their arguments this way too.
* The library functions the program calls (`strings`, `strconv`, `encoding/json`, `os`) are
  modelled after their documented behaviour. Console output is not modelled.
-/

namespace Todo

/-! ## Data model -/

/-- One step of a `for range` loop over a Go string: a Unicode character, or a byte that is
not part of a valid UTF-8 sequence. -/
inductive GoRune where
  | rune (c : Char)
  | byte (b : Nat)
deriving DecidableEq, Repr

/-- A Go string, as the sequence of characters and stray bytes a `for range` loop reads. -/
abbrev GoString := List GoRune

/-- The Go string with the characters of `s`. -/
def go (s : String) : GoString := s.data.map GoRune.rune

/-- The struct `Task` of `main.go`. -/
structure Task where
  ID : Int
  Description : GoString
  Completed : Bool
deriving DecidableEq, Repr

/-- Largest value of Go's 64-bit `int`. -/
def maxInt : Int := 9223372036854775807

/-- Smallest value of Go's 64-bit `int`. -/
def minInt : Int := -9223372036854775808

/-- The value a 64-bit two's complement `int` holds for the exact result `x`. -/
def wrapInt (x : Int) : Int :=
  (x + 9223372036854775808) % 18446744073709551616 - 9223372036854775808

/-! ## Task repository -/

/-- The loop `for _, task := range tasks { if task.ID > maxID { maxID = task.ID } }`;
the second argument is the running `maxID`. -/
def maxIDLoop : List Task → Int → Int
  | [], maxID => maxID
  | task :: rest, maxID => maxIDLoop rest (if task.ID > maxID then task.ID else maxID)

/-- The function `AddTask`: `maxID` starts at `0`, and the new task gets `maxID + 1`. -/
def AddTask (tasks : List Task) (description : GoString) : List Task :=
  let maxID := maxIDLoop tasks 0
  let newID := wrapInt (maxID + 1)
  let newTask : Task := { ID := newID, Description := description, Completed := false }
  tasks ++ [newTask]

/-- The search loop `for i := range tasks { if tasks[i].ID == id { ... return } }` shared by
`MarkTaskComplete` and `DeleteTask`: the first index, counted from `i`, of a task with this id. -/
def findIndexFrom : List Task → Int → Nat → Option Nat
  | [], _, _ => none
  | task :: rest, id, i => if task.ID = id then some i else findIndexFrom rest id (i + 1)

/-- The function `MarkTaskComplete`: `tasks[i].Completed = true` at the first match. -/
def MarkTaskComplete (tasks : List Task) (id : Int) : List Task :=
  match findIndexFrom tasks id 0 with
  | some i => tasks.modify (fun task => { task with Completed := true }) i
  | none => tasks

/-- The function `DeleteTask`: `append(tasks[:i], tasks[i+1:]...)` at the first match. -/
def DeleteTask (tasks : List Task) (id : Int) : List Task :=
  match findIndexFrom tasks id 0 with
  | some i => tasks.take i ++ tasks.drop (i + 1)
  | none => tasks

/-! ## Package `strings` and `strconv` -/

/-- Go's `unicode.IsSpace`. -/
def isSpaceChar (c : Char) : Bool :=
  let r := c.toNat
  (9 ≤ r && r ≤ 13) || r == 32 || r == 133 || r == 160 || r == 5760 ||
  (8192 ≤ r && r ≤ 8202) || r == 8232 || r == 8233 || r == 8239 || r == 8287 || r == 12288

/-- White space in a Go string: a stray byte decodes to U+FFFD, which is not white space. -/
def isSpace : GoRune → Bool
  | GoRune.rune c => isSpaceChar c
  | GoRune.byte _ => false

/-- Removal of the leading white space of a string. -/
def trimLeft : GoString → GoString
  | [] => []
  | c :: cs => if isSpace c then trimLeft cs else c :: cs

/-- Go's `strings.TrimSpace`: leading and trailing white space removed. -/
def TrimSpace (s : GoString) : GoString :=
  (trimLeft (trimLeft s).reverse).reverse

/-- The scan of `strings.Fields`: `cur` is the field being read, in reverse. -/
def fieldsLoop : GoString → GoString → List GoString
  | cur, [] => if cur = [] then [] else [cur.reverse]
  | cur, c :: cs =>
    if isSpace c then
      if cur = [] then fieldsLoop [] cs else cur.reverse :: fieldsLoop [] cs
    else fieldsLoop (c :: cur) cs

/-- Go's `strings.Fields`: the maximal runs of non-space characters, in order. -/
def Fields (s : GoString) : List GoString := fieldsLoop [] s

/-- Go's `strings.Join`. -/
def Join : List GoString → GoString → GoString
  | [], _ => []
  | [a], _ => a
  | a :: b :: rest, sep => a ++ sep ++ Join (b :: rest) sep

/-- The value of a run of decimal digits, `none` when a character is not a digit. -/
def parseDigits : Nat → List Char → Option Nat
  | acc, [] => some acc
  | acc, c :: cs =>
    if 48 ≤ c.toNat ∧ c.toNat ≤ 57 then parseDigits (acc * 10 + (c.toNat - 48)) cs else none

/-- Go's `strconv.ParseInt(s, 10, 64)`: an optional sign, then one or more decimal digits,
and a value in the range of `int`; `none` stands for the returned error. -/
def parseInt (s : List Char) : Option Int :=
  let signed : Bool × List Char :=
    match s with
    | [] => (false, [])
    | c :: r => if c = '+' then (false, r) else if c = '-' then (true, r) else (false, c :: r)
  if signed.2 = [] then none
  else
    match parseDigits 0 signed.2 with
    | none => none
    | some n =>
      let v : Int := if signed.1 then -(n : Int) else (n : Int)
      if minInt ≤ v ∧ v ≤ maxInt then some v else none

/-- The characters of a Go string, `none` when it holds a stray byte. -/
def runeChars : GoString → Option (List Char)
  | [] => some []
  | GoRune.rune c :: rest => (runeChars rest).map (fun cs => c :: cs)
  | GoRune.byte _ :: _ => none

/-- Go's `strconv.Atoi`. -/
def Atoi (s : GoString) : Option Int :=
  match runeChars s with
  | some cs => parseInt cs
  | none => none

/-! ## Package `encoding/json`: what `json.MarshalIndent(tasks, "", "  ")` writes -/

/-- The lower-case hexadecimal digit of `n`. -/
def hexDigit (n : Nat) : Char := if n < 10 then Char.ofNat (48 + n) else Char.ofNat (87 + n)

/-- What the encoder writes inside a JSON string for one step of the Go string: the
quotation mark and the backslash are escaped, control characters and the characters
`<`, `>`, `&`, U+2028 and U+2029 are written as escapes, and a byte that is not valid UTF-8
is written as the escape of U+FFFD. -/
def appendRune : GoRune → List Char
  | GoRune.byte _ => ['\\', 'u', 'f', 'f', 'f', 'd']
  | GoRune.rune c =>
    if c = '"' ∨ c = '\\' then ['\\', c]
    else if c.toNat = 8 then ['\\', 'b']
    else if c.toNat = 12 then ['\\', 'f']
    else if c.toNat = 10 then ['\\', 'n']
    else if c.toNat = 13 then ['\\', 'r']
    else if c.toNat = 9 then ['\\', 't']
    else if c.toNat < 32 ∨ c = '<' ∨ c = '>' ∨ c = '&' then
      ['\\', 'u', '0', '0', hexDigit (c.toNat / 16), hexDigit (c.toNat % 16)]
    else if c.toNat = 8232 then ['\\', 'u', '2', '0', '2', '8']
    else if c.toNat = 8233 then ['\\', 'u', '2', '0', '2', '9']
    else [c]

/-- The body of the JSON string written for a Go string, between the quotation marks. -/
def quotedBody (s : GoString) : List Char := (s.map appendRune).flatten

/-- The JSON string written for a Go string. -/
def appendString (s : GoString) : List Char := '"' :: (quotedBody s ++ ['"'])

/-- The decimal digits of `n`, most significant first; the first argument bounds the
number of digits. -/
def natDigits : Nat → Nat → List Char
  | 0, _ => []
  | fuel + 1, n =>
    if n < 10 then [Char.ofNat (48 + n)]
    else natDigits fuel (n / 10) ++ [Char.ofNat (48 + n % 10)]

/-- Go's `strconv.AppendInt(nil, v, 10)`: the decimal text of an `int`. -/
def formatInt (v : Int) : List Char :=
  if v < 0 then '-' :: natDigits (v.natAbs + 1) v.natAbs else natDigits (v.natAbs + 1) v.natAbs

/-- The indented JSON object of one task: the fields in the order of the struct, under the
names of their `json` tags. -/
def marshalTask (t : Task) : List Char :=
  "\x7b\n    \"id\": ".data ++ formatInt t.ID ++ ",\n    \"description\": ".data ++
    appendString t.Description ++ ",\n    \"completed\": ".data ++
    (if t.Completed then "true".data else "false".data) ++ "\n  \x7d".data

/-- The elements of the indented JSON array, separated by a comma and a new line. -/
def marshalElems : List Task → List Char
  | [] => []
  | [t] => marshalTask t
  | t :: rest => marshalTask t ++ ",\n  ".data ++ marshalElems rest

/-- The bytes `json.MarshalIndent(tasks, "", "  ")` returns for a slice of tasks; it returns
no error for this type. (For a nil slice Go writes `null` instead of `[]`; both are read
back as a collection without tasks.) -/
def MarshalIndent (tasks : List Task) : GoString :=
  match tasks with
  | [] => go "[]"
  | _ => ("[\n  ".data ++ marshalElems tasks ++ "\n]".data).map GoRune.rune

/-! ## Package `encoding/json`: what `json.Unmarshal(data, &tasks)` reads -/

/-- The tokens of a JSON text. -/
inductive Token where
  | lbrack | rbrack | lbrace | rbrace | comma | colon
  | str (s : GoString)
  | num (text : List Char)
  | true | false | null
deriving DecidableEq, Repr

/-- The value of a hexadecimal digit. -/
def hexVal (c : Char) : Option Nat :=
  if 48 ≤ c.toNat ∧ c.toNat ≤ 57 then some (c.toNat - 48)
  else if 97 ≤ c.toNat ∧ c.toNat ≤ 102 then some (c.toNat - 87)
  else if 65 ≤ c.toNat ∧ c.toNat ≤ 70 then some (c.toNat - 55)
  else none

/-- Four hexadecimal digits and their value. -/
def hex4 : GoString → Option (Nat × GoString)
  | GoRune.rune a :: GoRune.rune b :: GoRune.rune c :: GoRune.rune d :: rest =>
    match hexVal a, hexVal b, hexVal c, hexVal d with
    | some x, some y, some z, some w => some (((x * 16 + y) * 16 + z) * 16 + w, rest)
    | _, _, _, _ => none
  | _ => none

/-- The decoder's `getu4`: the value of a `\uXXXX` escape at the head of the text. -/
def getu4 : GoString → Option (Nat × GoString)
  | GoRune.rune a :: GoRune.rune b :: rest => if a = '\\' ∧ b = 'u' then hex4 rest else none
  | _ => none

/-- The character a one-letter escape stands for. -/
def unescape (e : Char) : Option Char :=
  if e = '"' ∨ e = '\\' ∨ e = '/' then some e
  else if e = 'b' then some (Char.ofNat 8)
  else if e = 'f' then some (Char.ofNat 12)
  else if e = 'n' then some (Char.ofNat 10)
  else if e = 'r' then some (Char.ofNat 13)
  else if e = 't' then some (Char.ofNat 9)
  else none

/-- The Unicode replacement character U+FFFD. -/
def replacementChar : Char := Char.ofNat 65533

/-- The body of a JSON string, after the opening quotation mark: the Go string it stands
for and the text after the closing quotation mark. Escapes are decoded (surrogate pairs
joined, a lone surrogate read as U+FFFD), a control character is an error, and a byte that
is not valid UTF-8 is read as U+FFFD. The first argument bounds the number of steps. -/
def lexString : Nat → GoString → GoString → Option (GoString × GoString)
  | 0, _, _ => none
  | _ + 1, [], _ => none
  | fuel + 1, GoRune.byte _ :: rest, acc =>
    lexString fuel rest (acc ++ [GoRune.rune replacementChar])
  | fuel + 1, GoRune.rune c :: rest, acc =>
    if c = '"' then some (acc, rest)
    else if c = '\\' then
      match rest with
      | GoRune.rune e :: rest1 =>
        if e = 'u' then
          match hex4 rest1 with
          | none => none
          | some (v, rest2) =>
            if 55296 ≤ v ∧ v ≤ 57343 then
              match getu4 rest2 with
              | some (w, rest3) =>
                if v < 56320 ∧ 56320 ≤ w ∧ w ≤ 57343 then
                  lexString fuel rest3
                    (acc ++ [GoRune.rune (Char.ofNat (65536 + (v - 55296) * 1024 + (w - 56320)))])
                else lexString fuel rest2 (acc ++ [GoRune.rune replacementChar])
              | none => lexString fuel rest2 (acc ++ [GoRune.rune replacementChar])
            else lexString fuel rest2 (acc ++ [GoRune.rune (Char.ofNat v)])
        else
          match unescape e with
          | some ch => lexString fuel rest1 (acc ++ [GoRune.rune ch])
          | none => none
      | _ => none
    else if c.toNat < 32 then none
    else lexString fuel rest (acc ++ [GoRune.rune c])

/-- The longest run of characters satisfying `p` at the head of the text, and the rest. -/
def spanRunes (p : Char → Bool) : GoString → List Char × GoString
  | GoRune.rune c :: rest =>
    if p c then ((c :: (spanRunes p rest).1), (spanRunes p rest).2)
    else ([], GoRune.rune c :: rest)
  | rest => ([], rest)

/-- A decimal digit. -/
def isDigit (c : Char) : Bool := 48 ≤ c.toNat && c.toNat ≤ 57

/-- A character that can occur in a JSON number. -/
def isNumberChar (c : Char) : Bool :=
  isDigit c || c == '-' || c == '+' || c == '.' || c == 'e' || c == 'E'

/-- A lower-case letter, as in the literals `true`, `false` and `null`. -/
def isLetter (c : Char) : Bool := 97 ≤ c.toNat && c.toNat ≤ 122

/-- The text after a run of digits. -/
def dropDigits : List Char → List Char
  | [] => []
  | c :: cs => if isDigit c then dropDigits cs else c :: cs

/-- The optional exponent of a JSON number, up to the end of the number. -/
def validExp : List Char → Bool
  | [] => true
  | e :: r =>
    if e = 'e' ∨ e = 'E' then
      match r with
      | [] => false
      | s :: r2 =>
        if s = '+' ∨ s = '-' then
          match r2 with
          | [] => false
          | d :: r3 => isDigit d && dropDigits r3 == []
        else isDigit s && dropDigits r2 == []
    else false

/-- The optional fraction of a JSON number, then the optional exponent. -/
def validFrac : List Char → Bool
  | [] => true
  | p :: r =>
    if p = '.' then
      match r with
      | [] => false
      | d :: r2 => isDigit d && validExp (dropDigits r2)
    else validExp (p :: r)

/-- The integer part of a JSON number (`0`, or digits without a leading `0`), then the
rest. -/
def validInt : List Char → Bool
  | [] => false
  | d :: r =>
    if d = '0' then validFrac r
    else if isDigit d then validFrac (dropDigits r)
    else false

/-- The grammar of a JSON number. -/
def validNumber : List Char → Bool
  | [] => false
  | c :: r => if c = '-' then validInt r else validInt (c :: r)

/-- The tokens of a JSON text, `none` when it has a character no token starts with, a
malformed string, number or literal, or a byte that is not valid UTF-8 outside a string.
The first argument bounds the number of steps. -/
def lex : Nat → GoString → Option (List Token)
  | 0, _ => none
  | _ + 1, [] => some []
  | _ + 1, GoRune.byte _ :: _ => none
  | fuel + 1, GoRune.rune c :: rest =>
    if c = ' ' ∨ c = '\t' ∨ c = '\r' ∨ c = '\n' then lex fuel rest
    else if c = '[' then (lex fuel rest).map (fun ts => Token.lbrack :: ts)
    else if c = ']' then (lex fuel rest).map (fun ts => Token.rbrack :: ts)
    else if c = '{' then (lex fuel rest).map (fun ts => Token.lbrace :: ts)
    else if c = '}' then (lex fuel rest).map (fun ts => Token.rbrace :: ts)
    else if c = ',' then (lex fuel rest).map (fun ts => Token.comma :: ts)
    else if c = ':' then (lex fuel rest).map (fun ts => Token.colon :: ts)
    else if c = '"' then
      match lexString fuel rest [] with
      | none => none
      | some (s, rest1) => (lex fuel rest1).map (fun ts => Token.str s :: ts)
    else if c = '-' ∨ isDigit c then
      if validNumber (c :: (spanRunes isNumberChar rest).1) then
        (lex fuel (spanRunes isNumberChar rest).2).map
          (fun ts => Token.num (c :: (spanRunes isNumberChar rest).1) :: ts)
      else none
    else if isLetter c then
      if c :: (spanRunes isLetter rest).1 = ['t', 'r', 'u', 'e'] then
        (lex fuel (spanRunes isLetter rest).2).map (fun ts => Token.true :: ts)
      else if c :: (spanRunes isLetter rest).1 = ['f', 'a', 'l', 's', 'e'] then
        (lex fuel (spanRunes isLetter rest).2).map (fun ts => Token.false :: ts)
      else if c :: (spanRunes isLetter rest).1 = ['n', 'u', 'l', 'l'] then
        (lex fuel (spanRunes isLetter rest).2).map (fun ts => Token.null :: ts)
      else none
    else none

/-- A JSON value; a number keeps its text. -/
inductive Json where
  | null
  | bool (b : Bool)
  | num (text : List Char)
  | str (s : GoString)
  | arr (elems : List Json)
  | obj (members : List (GoString × Json))

/-- The elements of an array after the first `[`, up to the closing `]`; `parse` reads
one value. -/
def parseElems (parse : List Token → Option (Json × List Token)) :
    Nat → List Token → Option (List Json × List Token)
  | 0, _ => none
  | n + 1, toks =>
    match parse toks with
    | some (v, Token.comma :: rest) =>
      (parseElems parse n rest).map (fun r => (v :: r.1, r.2))
    | some (v, Token.rbrack :: rest) => some ([v], rest)
    | _ => none

/-- The members of an object after the first `{`, up to the closing `}`. -/
def parseMembers (parse : List Token → Option (Json × List Token)) :
    Nat → List Token → Option (List (GoString × Json) × List Token)
  | n + 1, Token.str key :: Token.colon :: toks =>
    match parse toks with
    | some (v, Token.comma :: rest) =>
      (parseMembers parse n rest).map (fun r => ((key, v) :: r.1, r.2))
    | some (v, Token.rbrace :: rest) => some ([(key, v)], rest)
    | _ => none
  | _, _ => none

/-- The JSON value at the head of the tokens, and the tokens after it. The first argument
is the nesting depth still allowed (the decoder gives up beyond 10000 nested values). -/
def parseValue : Nat → List Token → Option (Json × List Token)
  | 0, _ => none
  | _ + 1, [] => none
  | depth + 1, tok :: rest =>
    match tok with
    | Token.null => some (Json.null, rest)
    | Token.true => some (Json.bool true, rest)
    | Token.false => some (Json.bool false, rest)
    | Token.num text => some (Json.num text, rest)
    | Token.str s => some (Json.str s, rest)
    | Token.lbrack =>
      match rest with
      | Token.rbrack :: rest1 => some (Json.arr [], rest1)
      | _ =>
        (parseElems (parseValue depth) rest.length rest).map (fun r => (Json.arr r.1, r.2))
    | Token.lbrace =>
      match rest with
      | Token.rbrace :: rest1 => some (Json.obj [], rest1)
      | _ =>
        (parseMembers (parseValue depth) rest.length rest).map (fun r => (Json.obj r.1, r.2))
    | _ => none

/-- Whether a character of a JSON key matches the letter `n` of a field name, case folded:
the letter, its capital, and the two characters Unicode folds to `s` and `k`. -/
def foldsTo (n : Char) : GoRune → Bool
  | GoRune.byte _ => false
  | GoRune.rune c =>
    c == n || c.toNat + 32 == n.toNat || (n == 's' && c.toNat == 383) ||
      (n == 'k' && c.toNat == 8490)

/-- Whether a JSON key names the field with this (lower-case) name. -/
def keyMatches : List Char → GoString → Bool
  | [], [] => true
  | n :: ns, k :: ks => foldsTo n k && keyMatches ns ks
  | _, _ => false

/-- A JSON value stored into the field `ID`: a number that is an `int`, or `null`, which
leaves the field as it is; anything else is a type error (`none`). -/
def storeID (t : Task) : Json → Option Task
  | Json.num text => (parseInt text).map (fun n => { t with ID := n })
  | Json.null => some t
  | _ => none

/-- A JSON value stored into the field `Description`. -/
def storeDescription (t : Task) : Json → Option Task
  | Json.str s => some { t with Description := s }
  | Json.null => some t
  | _ => none

/-- A JSON value stored into the field `Completed`. -/
def storeCompleted (t : Task) : Json → Option Task
  | Json.bool b => some { t with Completed := b }
  | Json.null => some t
  | _ => none

/-- One member of a JSON object stored into a task: the field is found by the name of its
`json` tag; a member with another key is skipped. -/
def decodeMember (t : Task) (key : GoString) (v : Json) : Option Task :=
  if keyMatches "id".data key then storeID t v
  else if keyMatches "description".data key then storeDescription t v
  else if keyMatches "completed".data key then storeCompleted t v
  else some t

/-- The members of a JSON object stored into a task, in order. -/
def decodeMembers : Task → List (GoString × Json) → Option Task
  | t, [] => some t
  | t, (key, v) :: rest =>
    match decodeMember t key v with
    | some t1 => decodeMembers t1 rest
    | none => none

/-- An element of the JSON array read as a task: an object, or `null` for the zero task. -/
def decodeTask : Json → Option Task
  | Json.null => some { ID := 0, Description := [], Completed := false }
  | Json.obj members => decodeMembers { ID := 0, Description := [], Completed := false } members
  | _ => none

/-- The elements of the JSON array read as tasks. -/
def decodeElems : List Json → Option (List Task)
  | [] => some []
  | v :: rest =>
    match decodeTask v, decodeElems rest with
    | some t, some ts => some (t :: ts)
    | _, _ => none

/-- The errors `LoadTasks` returns. -/
inductive LoadError where
  | readFailed
  | malformed
  | typeMismatch
deriving DecidableEq, Repr

/-- The outcome of `json.Unmarshal(data, &tasks)` for a nil `tasks`: a syntax error when the
text is not one JSON value, a type error when the value is not an array of task objects
(or `null`), and the tasks otherwise. -/
def Unmarshal (data : GoString) : Except LoadError (List Task) :=
  match lex (data.length + 1) data with
  | none => Except.error LoadError.malformed
  | some toks =>
    match parseValue 10001 toks with
    | some (Json.null, []) => Except.ok []
    | some (Json.arr elems, []) =>
      match decodeElems elems with
      | some ts => Except.ok ts
      | none => Except.error LoadError.typeMismatch
    | some (_, []) => Except.error LoadError.typeMismatch
    | _ => Except.error LoadError.malformed

/-! ## Package `os` and the storage functions -/

/-- The files the program can see: the content of each file that exists, and whether
reading, respectively writing, a file of that name fails (permissions, a full disk). -/
structure FileSystem where
  files : String → Option GoString
  readFails : String → Bool
  writeFails : String → Bool

/-- The errors of `os.ReadFile`. -/
inductive ReadError where
  | notExist
  | other
deriving DecidableEq, Repr

/-- Go's `os.ReadFile`. -/
def ReadFile (fs : FileSystem) (name : String) : Except ReadError GoString :=
  match fs.files name with
  | none => Except.error ReadError.notExist
  | some data => if fs.readFails name then Except.error ReadError.other else Except.ok data

/-- Go's `os.WriteFile`: the file system after the write, `none` standing for an error. -/
def WriteFile (fs : FileSystem) (name : String) (data : GoString) : Option FileSystem :=
  if fs.writeFails name then none
  else some { files := fun n => if n = name then some data else fs.files n,
              readFails := fs.readFails, writeFails := fs.writeFails }

/-- The function `LoadTasks`: no file gives the empty collection, any other read error and
any error of `json.Unmarshal` is returned. -/
def LoadTasks (fs : FileSystem) (filename : String) : Except LoadError (List Task) :=
  match ReadFile fs filename with
  | Except.error ReadError.notExist => Except.ok []
  | Except.error ReadError.other => Except.error LoadError.readFailed
  | Except.ok data => Unmarshal data

/-- The function `SaveTasks`: the file system after the call, `none` standing for the
returned error. -/
def SaveTasks (fs : FileSystem) (filename : String) (tasks : List Task) : Option FileSystem :=
  WriteFile fs filename (MarshalIndent tasks)

/-- A file system without files, on which nothing fails. -/
def emptyDisk : FileSystem :=
  { files := fun _ => none, readFails := fun _ => false, writeFails := fun _ => false }

/-- A file system whose file `tasks.json` can be written but not read. -/
def writeOnlyDisk : FileSystem :=
  { files := fun n => if n = "tasks.json" then some (go "[]") else none,
    readFails := fun n => n = "tasks.json", writeFails := fun _ => false }

/-! ## One iteration of the command loop -/

/-- What one iteration of the `for` loop of `main` leaves behind: the value of the variable
`tasks`, whether the loop goes on (`false` after `exit`), and whether the iteration called
`SaveTasks` on `tasks`. -/
structure Iteration where
  tasks : List Task
  running : Bool
  saved : Bool
deriving DecidableEq, Repr

/-- The body of the `for` loop of `main`, for a line that `ReadString` returned without error. -/
def loopBody (tasks : List Task) (input : GoString) : Iteration :=
  let args := Fields (TrimSpace input)
  match args with
  | [] => { tasks := tasks, running := true, saved := false }
  | command :: rest =>
    if command = go "add" then
      if args.length < 2 then { tasks := tasks, running := true, saved := false }
      else
        let description := Join rest (go " ")
        { tasks := AddTask tasks description, running := true, saved := true }
    else if command = go "list" then { tasks := tasks, running := true, saved := true }
    else if command = go "complete" then
      match rest with
      | [arg] =>
        match Atoi arg with
        | none => { tasks := tasks, running := true, saved := false }
        | some id => { tasks := MarkTaskComplete tasks id, running := true, saved := true }
      | _ => { tasks := tasks, running := true, saved := false }
    else if command = go "delete" then
      match rest with
      | [arg] =>
        match Atoi arg with
        | none => { tasks := tasks, running := true, saved := false }
        | some id => { tasks := DeleteTask tasks id, running := true, saved := true }
      | _ => { tasks := tasks, running := true, saved := false }
    else if command = go "help" then { tasks := tasks, running := true, saved := true }
    else if command = go "exit" then { tasks := tasks, running := false, saved := true }
    else { tasks := tasks, running := true, saved := true }

/-! ## Sequences of operations -/

/-- One call of `AddTask` per description, in order, starting from `tasks`. -/
def addAll (tasks : List Task) (descriptions : List GoString) : List Task :=
  descriptions.foldl AddTask tasks

/-- A call of one of the three mutating operations of the task repository. -/
inductive Op where
  | add (description : GoString)
  | complete (id : Int)
  | delete (id : Int)
deriving DecidableEq, Repr

/-- The collection an operation returns. -/
def applyOp (tasks : List Task) : Op → List Task
  | Op.add description => AddTask tasks description
  | Op.complete id => MarkTaskComplete tasks id
  | Op.delete id => DeleteTask tasks id

/-- The collection after a sequence of operations, applied in order. -/
def runOps (tasks : List Task) (ops : List Op) : List Task :=
  ops.foldl applyOp tasks

/-- The ids of a collection, in order. -/
def ids (tasks : List Task) : List Int := tasks.map Task.ID

/-- The id the specification gives the new task: the greatest id of the collection, `0`
when the collection is empty, plus one. -/
def specNewID (tasks : List Task) : Int :=
  (match (ids tasks).max? with
    | some m => m
    | none => 0) + 1

/-- The tasks `AddTask` appends for a list of descriptions when the greatest id so far is `m`
and no addition overflows: ids `m + 1`, `m + 2`, and so on. -/
def freshTasks : Int → List GoString → List Task
  | _, [] => []
  | m, d :: ds => { ID := m + 1, Description := d, Completed := false } :: freshTasks (m + 1) ds

/-! ## Auxiliary notions for the storage round trip -/

/-- Whether a Go string is valid UTF-8: it has no stray byte. -/
def validUTF8 (s : GoString) : Bool :=
  s.all (fun r => match r with | GoRune.rune _ => true | GoRune.byte _ => false)

/-- A step of a Go string as `json.Unmarshal` reads it back: a stray byte has become U+FFFD. -/
def coerceRune : GoRune → GoRune
  | GoRune.byte _ => GoRune.rune replacementChar
  | GoRune.rune c => GoRune.rune c

/-- A task as it is read back: the stray bytes of the description have become U+FFFD. -/
def coerceTask (t : Task) : Task :=
  { ID := t.ID, Description := t.Description.map coerceRune, Completed := t.Completed }

/-- With any amount of fuel above its length, the text `x` has the tokens `ts`. -/
def Lexes (x : GoString) (ts : List Token) : Prop :=
  ∀ f, x.length < f → lex f x = some ts

/-- The tokens of the object the encoder writes for a task. -/
def taskTokens (t : Task) : List Token :=
  [Token.lbrace, Token.str (go "id"), Token.colon, Token.num (formatInt t.ID), Token.comma,
    Token.str (go "description"), Token.colon, Token.str (t.Description.map coerceRune),
    Token.comma, Token.str (go "completed"), Token.colon,
    (if t.Completed then Token.true else Token.false), Token.rbrace]

/-- The tokens of the elements the encoder writes for a list of tasks. -/
def elemsTokens : List Task → List Token
  | [] => []
  | [t] => taskTokens t
  | t :: rest => taskTokens t ++ Token.comma :: elemsTokens rest

/-- The JSON object the encoder writes for a task, with the description as it is read back. -/
def taskJson (t : Task) : Json :=
  Json.obj [(go "id", Json.num (formatInt t.ID)),
    (go "description", Json.str (t.Description.map coerceRune)),
    (go "completed", Json.bool t.Completed)]

/-! ## Lemmas on the id computation -/

theorem wrapInt_eq_self {x : Int} (h1 : minInt ≤ x) (h2 : x ≤ maxInt) : wrapInt x = x := by
  unfold wrapInt
  unfold minInt at h1
  unfold maxInt at h2
  omega

theorem maxIDLoop_ge_start (tasks : List Task) (m : Int) : m ≤ maxIDLoop tasks m := by
  induction tasks generalizing m with
  | nil => simp [maxIDLoop]
  | cons t rest ih =>
    simp only [maxIDLoop]
    have := ih (if t.ID > m then t.ID else m)
    by_cases hu : t.ID > m
    · rw [if_pos hu] at this ⊢; omega
    · rw [if_neg hu] at this ⊢; omega

theorem maxIDLoop_ge_mem (tasks : List Task) (m : Int) (t : Task) (ht : t ∈ tasks) :
    t.ID ≤ maxIDLoop tasks m := by
  induction tasks generalizing m with
  | nil => simp at ht
  | cons u rest ih =>
    simp only [maxIDLoop]
    rcases List.mem_cons.mp ht with h | h
    · subst h
      have := maxIDLoop_ge_start rest (if t.ID > m then t.ID else m)
      by_cases hu : t.ID > m
      · rw [if_pos hu] at this ⊢; omega
      · rw [if_neg hu] at this ⊢; omega
    · exact ih _ h

theorem maxIDLoop_attained (tasks : List Task) (m : Int) :
    maxIDLoop tasks m = m ∨ ∃ t ∈ tasks, t.ID = maxIDLoop tasks m := by
  induction tasks generalizing m with
  | nil => simp [maxIDLoop]
  | cons u rest ih =>
    simp only [maxIDLoop]
    rcases ih (if u.ID > m then u.ID else m) with h | ⟨t, ht, h⟩
    · by_cases hu : u.ID > m
      · right
        refine ⟨u, List.mem_cons_self _ _, ?_⟩
        rw [h]; simp [hu]
      · left
        rw [h]; simp [hu]
    · right
      exact ⟨t, List.mem_cons_of_mem _ ht, h⟩

theorem maxIDLoop_append (a b : List Task) (m : Int) :
    maxIDLoop (a ++ b) m = maxIDLoop b (maxIDLoop a m) := by
  induction a generalizing m with
  | nil => simp [maxIDLoop]
  | cons u rest ih => simp [maxIDLoop, ih]

theorem maxIDLoop_lt_maxInt (tasks : List Task) (h : ∀ t ∈ tasks, t.ID < maxInt) :
    maxIDLoop tasks 0 < maxInt := by
  rcases maxIDLoop_attained tasks 0 with h0 | ⟨t, ht, h0⟩
  · rw [h0]; decide
  · rw [← h0]; exact h t ht

/-- Without overflow `AddTask` appends the task with id `maxID + 1`. -/
theorem AddTask_eq_of_lt (tasks : List Task) (d : GoString) (h : maxIDLoop tasks 0 < maxInt) :
    AddTask tasks d = tasks ++ [{ ID := maxIDLoop tasks 0 + 1, Description := d, Completed := false }] := by
  have h0 := maxIDLoop_ge_start tasks 0
  have hw : wrapInt (maxIDLoop tasks 0 + 1) = maxIDLoop tasks 0 + 1 :=
    wrapInt_eq_self (by unfold minInt; omega) (by omega)
  simp [AddTask, hw]

theorem maxIDLoop_AddTask (tasks : List Task) (d : GoString) (h : maxIDLoop tasks 0 < maxInt) :
    maxIDLoop (AddTask tasks d) 0 = maxIDLoop tasks 0 + 1 := by
  rw [AddTask_eq_of_lt tasks d h, maxIDLoop_append]
  simp [maxIDLoop]

theorem addAll_eq_freshTasks (ds : List GoString) (tasks : List Task)
    (h : maxIDLoop tasks 0 + ds.length ≤ maxInt) :
    addAll tasks ds = tasks ++ freshTasks (maxIDLoop tasks 0) ds := by
  induction ds generalizing tasks with
  | nil => simp [addAll, freshTasks]
  | cons d ds ih =>
    have hlt : maxIDLoop tasks 0 < maxInt := by
      simp only [List.length_cons, Nat.cast_add, Nat.cast_one] at h
      omega
    have hstep := ih (AddTask tasks d) (by
      rw [maxIDLoop_AddTask tasks d hlt]
      simp only [List.length_cons, Nat.cast_add, Nat.cast_one] at h
      omega)
    simp only [addAll, List.foldl_cons] at hstep ⊢
    rw [hstep, maxIDLoop_AddTask tasks d hlt, AddTask_eq_of_lt tasks d hlt]
    simp [freshTasks]

theorem freshTasks_length (m : Int) (ds : List GoString) : (freshTasks m ds).length = ds.length := by
  induction ds generalizing m with
  | nil => simp [freshTasks]
  | cons d ds ih => simp [freshTasks, ih]

theorem freshTasks_gt (m : Int) (ds : List GoString) : ∀ t ∈ freshTasks m ds, m < t.ID := by
  induction ds generalizing m with
  | nil => simp [freshTasks]
  | cons d ds ih =>
    intro t ht
    simp only [freshTasks, List.mem_cons] at ht
    rcases ht with h | h
    · subst h; simp
    · have := ih (m + 1) t h
      omega

theorem freshTasks_descriptions (m : Int) (ds : List GoString) :
    (freshTasks m ds).map Task.Description = ds := by
  induction ds generalizing m with
  | nil => simp [freshTasks]
  | cons d ds ih => simp [freshTasks, ih]

theorem freshTasks_pending (m : Int) (ds : List GoString) :
    ∀ t ∈ freshTasks m ds, t.Completed = false := by
  induction ds generalizing m with
  | nil => simp [freshTasks]
  | cons d ds ih =>
    intro t ht
    simp only [freshTasks, List.mem_cons] at ht
    rcases ht with h | h
    · subst h; rfl
    · exact ih (m + 1) t h

theorem freshTasks_ids (m : Int) (ds : List GoString) :
    ids (freshTasks m ds) = (List.range ds.length).map (fun k => m + ((k : Nat) : Int) + 1) := by
  induction ds generalizing m with
  | nil => simp [freshTasks, ids]
  | cons d ds ih =>
    have := ih (m + 1)
    simp only [ids] at this
    simp only [freshTasks, ids, List.map_cons, List.length_cons, List.range_succ_eq_map,
      List.map_map, this]
    simp
    intro a _
    omega

theorem freshTasks_increasing (m : Int) (ds : List GoString) :
    (ids (freshTasks m ds)).Pairwise (fun a b => a < b) := by
  induction ds generalizing m with
  | nil => simp [freshTasks, ids]
  | cons d ds ih =>
    simp only [freshTasks, ids, List.map_cons, List.pairwise_cons]
    refine ⟨?_, ih (m + 1)⟩
    intro b hb
    obtain ⟨t, ht, rfl⟩ := List.mem_map.mp hb
    have := freshTasks_gt (m + 1) ds t ht
    omega

/-! ## Lemmas on the search loop -/

/-- The search either stops at the first task with the id, or finds the id nowhere. -/
theorem findIndexFrom_cases (tasks : List Task) (id : Int) (k : Nat) :
    (∃ pre t post, tasks = pre ++ t :: post ∧ (∀ u ∈ pre, u.ID ≠ id) ∧ t.ID = id ∧
        findIndexFrom tasks id k = some (k + pre.length)) ∨
      ((∀ t ∈ tasks, t.ID ≠ id) ∧ findIndexFrom tasks id k = none) := by
  induction tasks generalizing k with
  | nil => right; simp [findIndexFrom]
  | cons u rest ih =>
    by_cases hu : u.ID = id
    · left
      exact ⟨[], u, rest, by simp, by simp, hu, by simp [findIndexFrom, hu]⟩
    · rcases ih (k + 1) with ⟨pre, t, post, hsplit, hpre, ht, hfind⟩ | ⟨hnone, hfind⟩
      · left
        refine ⟨u :: pre, t, post, by simp [hsplit], ?_, ht, ?_⟩
        · intro v hv
          rcases List.mem_cons.mp hv with h | h
          · subst h; exact hu
          · exact hpre v h
        · simp only [findIndexFrom, hu, if_false, hfind, List.length_cons]
          congr 1; omega
      · right
        refine ⟨?_, by simp [findIndexFrom, hu, hfind]⟩
        intro v hv
        rcases List.mem_cons.mp hv with h | h
        · subst h; exact hu
        · exact hnone v h

theorem modify_at_length (f : Task → Task) (pre : List Task) (t : Task) (post : List Task) :
    (pre ++ t :: post).modify f pre.length = pre ++ f t :: post := by
  induction pre with
  | nil => simp [List.modify, List.modifyTailIdx]
  | cons u rest ih => simpa [List.modify, List.modifyTailIdx] using ih

theorem findIndexFrom_split (pre : List Task) (t : Task) (post : List Task) (id : Int) (k : Nat)
    (hpre : ∀ u ∈ pre, u.ID ≠ id) (ht : t.ID = id) :
    findIndexFrom (pre ++ t :: post) id k = some (k + pre.length) := by
  induction pre generalizing k with
  | nil => simp [findIndexFrom, ht]
  | cons u rest ih =>
    have hu : u.ID ≠ id := hpre u (List.mem_cons_self _ _)
    have := ih (k + 1) (fun v hv => hpre v (List.mem_cons_of_mem _ hv))
    show findIndexFrom (u :: (rest ++ t :: post)) id k = some (k + (u :: rest).length)
    rw [findIndexFrom, if_neg hu, this, List.length_cons]
    congr 1; omega

theorem DeleteTask_split (pre : List Task) (t : Task) (post : List Task) (id : Int)
    (hpre : ∀ u ∈ pre, u.ID ≠ id) (ht : t.ID = id) :
    DeleteTask (pre ++ t :: post) id = pre ++ post := by
  simp [DeleteTask, findIndexFrom_split pre t post id 0 hpre ht]

theorem MarkTaskComplete_split (pre : List Task) (t : Task) (post : List Task) (id : Int)
    (hpre : ∀ u ∈ pre, u.ID ≠ id) (ht : t.ID = id) :
    MarkTaskComplete (pre ++ t :: post) id = pre ++ { t with Completed := true } :: post := by
  simp only [MarkTaskComplete, findIndexFrom_split pre t post id 0 hpre ht, Nat.zero_add]
  exact modify_at_length _ pre t post

theorem DeleteTask_absent (tasks : List Task) (id : Int) (h : ∀ t ∈ tasks, t.ID ≠ id) :
    DeleteTask tasks id = tasks := by
  rcases findIndexFrom_cases tasks id 0 with ⟨pre, t, post, hsplit, _, ht, _⟩ | ⟨_, hfind⟩
  · exact absurd ht (h t (by simp [hsplit]))
  · simp [DeleteTask, hfind]

theorem MarkTaskComplete_absent (tasks : List Task) (id : Int) (h : ∀ t ∈ tasks, t.ID ≠ id) :
    MarkTaskComplete tasks id = tasks := by
  rcases findIndexFrom_cases tasks id 0 with ⟨pre, t, post, hsplit, _, ht, _⟩ | ⟨_, hfind⟩
  · exact absurd ht (h t (by simp [hsplit]))
  · simp [MarkTaskComplete, hfind]

theorem ids_MarkTaskComplete (tasks : List Task) (id : Int) :
    ids (MarkTaskComplete tasks id) = ids tasks := by
  rcases findIndexFrom_cases tasks id 0 with ⟨pre, t, post, hsplit, hpre, ht, _⟩ | ⟨hnone, _⟩
  · rw [hsplit, MarkTaskComplete_split pre t post id hpre ht]
    simp [ids]
  · rw [MarkTaskComplete_absent tasks id hnone]

theorem ids_DeleteTask_sublist (tasks : List Task) (id : Int) :
    (ids (DeleteTask tasks id)).Sublist (ids tasks) := by
  rcases findIndexFrom_cases tasks id 0 with ⟨pre, t, post, hsplit, hpre, ht, _⟩ | ⟨hnone, _⟩
  · rw [hsplit, DeleteTask_split pre t post id hpre ht]
    simp only [ids, List.map_append, List.map_cons]
    exact List.Sublist.append (List.Sublist.refl _) (List.sublist_cons_self _ _)
  · rw [DeleteTask_absent tasks id hnone]

theorem mem_of_mem_DeleteTask (tasks : List Task) (id : Int) (t : Task)
    (h : t ∈ DeleteTask tasks id) : t ∈ tasks := by
  rcases findIndexFrom_cases tasks id 0 with ⟨pre, u, post, hsplit, hpre, hu, _⟩ | ⟨hnone, _⟩
  · rw [hsplit, DeleteTask_split pre u post id hpre hu] at h
    rw [hsplit]
    rcases List.mem_append.mp h with h1 | h1
    · exact List.mem_append_left _ h1
    · exact List.mem_append_right _ (List.mem_cons_of_mem _ h1)
  · rwa [DeleteTask_absent tasks id hnone] at h

theorem maxIDLoop_le_of_ids (tasks : List Task) (k : Int) (hk : 0 ≤ k)
    (h : ∀ x ∈ ids tasks, x ≤ k) : maxIDLoop tasks 0 ≤ k := by
  rcases maxIDLoop_attained tasks 0 with h0 | ⟨t, ht, h0⟩
  · rw [h0]; exact hk
  · rw [← h0]; exact h t.ID (List.mem_map.mpr ⟨t, ht, rfl⟩)

theorem AddTask_nodup (tasks : List Task) (d : GoString) (hn : (ids tasks).Nodup)
    (hb : ∀ t ∈ tasks, t.ID < maxInt) : (ids (AddTask tasks d)).Nodup := by
  rw [AddTask_eq_of_lt tasks d (maxIDLoop_lt_maxInt tasks hb)]
  simp only [ids, List.map_append, List.map_cons, List.map_nil]
  refine List.Nodup.append hn (List.nodup_singleton _) ?_
  intro x hx hx2
  obtain ⟨t, ht, rfl⟩ := List.mem_map.mp hx
  have h1 := maxIDLoop_ge_mem tasks 0 t ht
  simp only [List.mem_singleton] at hx2
  omega

/-- The invariant behind unique ids: the ids are distinct and bounded by the number of
operations applied so far. -/
theorem runOps_nodup (ops : List Op) (tasks : List Task) (k : Int) (hk : 0 ≤ k)
    (hn : (ids tasks).Nodup) (hle : ∀ x ∈ ids tasks, x ≤ k) (hb : k + ops.length ≤ maxInt) :
    (ids (runOps tasks ops)).Nodup := by
  induction ops generalizing tasks k with
  | nil => simpa [runOps] using hn
  | cons op ops ih =>
    simp only [List.length_cons, Nat.cast_add, Nat.cast_one] at hb
    have hm := maxIDLoop_le_of_ids tasks k hk hle
    have hlt : maxIDLoop tasks 0 < maxInt := by omega
    have hrest : k + 1 + ops.length ≤ maxInt := by omega
    simp only [runOps, List.foldl_cons]
    cases op with
    | add d =>
      refine ih (applyOp tasks (Op.add d)) (k + 1) (by omega) ?_ ?_ hrest
      · refine AddTask_nodup tasks d hn ?_
        intro t ht
        have := maxIDLoop_ge_mem tasks 0 t ht
        omega
      · intro x hx
        simp only [applyOp, AddTask_eq_of_lt tasks d hlt, ids, List.map_append, List.map_cons,
          List.map_nil, List.mem_append, List.mem_singleton] at hx
        rcases hx with hx | hx
        · have := hle x hx
          omega
        · omega
    | complete i =>
      refine ih (applyOp tasks (Op.complete i)) (k + 1) (by omega) ?_ ?_ hrest
      · simpa [applyOp, ids_MarkTaskComplete] using hn
      · intro x hx
        simp only [applyOp, ids_MarkTaskComplete] at hx
        have := hle x hx
        omega
    | delete i =>
      refine ih (applyOp tasks (Op.delete i)) (k + 1) (by omega) ?_ ?_ hrest
      · exact List.Nodup.sublist (ids_DeleteTask_sublist tasks i) hn
      · intro x hx
        have := hle x ((ids_DeleteTask_sublist tasks i).subset hx)
        omega

/-! ## The task repository: what each operation returns -/

/-- C1 (as amended). For every collection `c` and description `d`, `AddTask c d` is `c`
followed by exactly one task `t`, with description `d` and not completed; and when the ids
of `c` are all below the largest `int`, the id of `t` is `m + 1` where `m` is the greatest
of `0` and the ids of `c` (so `m` is `0` even when every id of `c` is negative). -/
theorem AddTask_appends (c : List Task) (d : GoString) :
    ∃ t : Task, AddTask c d = c ++ [t] ∧ t.Description = d ∧ t.Completed = false ∧
      ((∀ u ∈ c, u.ID < maxInt) →
        ∃ m : Int, 0 ≤ m ∧ (∀ u ∈ c, u.ID ≤ m) ∧ (m = 0 ∨ ∃ u ∈ c, u.ID = m) ∧
          t.ID = m + 1) := by
  refine ⟨⟨wrapInt (maxIDLoop c 0 + 1), d, false⟩, rfl, rfl, rfl, ?_⟩
  intro h
  refine ⟨maxIDLoop c 0, maxIDLoop_ge_start c 0, fun u hu => maxIDLoop_ge_mem c 0 u hu,
    maxIDLoop_attained c 0, ?_⟩
  have h0 := maxIDLoop_ge_start c 0
  have h1 := maxIDLoop_lt_maxInt c h
  exact wrapInt_eq_self (by unfold minInt; omega) (by omega)

/-- C1, at a concrete collection with the ids `3` and `-7`, both below the largest `int`. -/
theorem AddTask_appends_witness :
    (∀ u ∈ [(⟨3, go "a", true⟩ : Task), ⟨-7, go "b", false⟩], u.ID < maxInt) ∧
    ∃ t : Task, AddTask [⟨3, go "a", true⟩, ⟨-7, go "b", false⟩] (go "c") =
        [⟨3, go "a", true⟩, ⟨-7, go "b", false⟩] ++ [t] ∧
      t.Description = go "c" ∧ t.Completed = false ∧
      ∃ m : Int, 0 ≤ m ∧ (∀ u ∈ [(⟨3, go "a", true⟩ : Task), ⟨-7, go "b", false⟩], u.ID ≤ m) ∧
        (m = 0 ∨ ∃ u ∈ [(⟨3, go "a", true⟩ : Task), ⟨-7, go "b", false⟩], u.ID = m) ∧
        t.ID = m + 1 := by
  obtain ⟨t, happ, hd, hc, hid⟩ :=
    AddTask_appends [⟨3, go "a", true⟩, ⟨-7, go "b", false⟩] (go "c")
  exact ⟨by decide, t, happ, hd, hc, hid (by decide)⟩

/-- C1 fails as stated. On a collection whose only id is `-5` the new id is `1`, not
`max + 1 = -4`; on a collection holding the largest `int` the new id wraps to the smallest
`int` instead of being one more than the maximum. -/
theorem AddTask_id_differs_from_spec :
    (AddTask [{ ID := -5, Description := go "old", Completed := false }] (go "new") =
        [{ ID := -5, Description := go "old", Completed := false },
         { ID := 1, Description := go "new", Completed := false }] ∧
      specNewID [{ ID := -5, Description := go "old", Completed := false }] = -4 ∧
      AddTask [{ ID := -5, Description := go "old", Completed := false }] (go "new") ≠
        [{ ID := -5, Description := go "old", Completed := false }] ++
          [{ ID := specNewID [{ ID := -5, Description := go "old", Completed := false }],
             Description := go "new", Completed := false }]) ∧
    (AddTask [{ ID := 9223372036854775807, Description := go "old", Completed := false }]
        (go "new") =
        [{ ID := 9223372036854775807, Description := go "old", Completed := false },
         { ID := -9223372036854775808, Description := go "new", Completed := false }] ∧
      specNewID [{ ID := 9223372036854775807, Description := go "old", Completed := false }] =
        9223372036854775808 ∧
      AddTask [{ ID := 9223372036854775807, Description := go "old", Completed := false }]
        (go "new") ≠
        [{ ID := 9223372036854775807, Description := go "old", Completed := false }] ++
          [{ ID := specNewID [⟨9223372036854775807, go "old", false⟩],
             Description := go "new", Completed := false }]) := by
  decide

/-- C2 fails as stated (its own example). `AddTask` on the empty collection assigns id `1`,
`DeleteTask` of id `1` empties the collection, and the next `AddTask` assigns id `1` again. -/
theorem id_reused_after_delete_of_max :
    AddTask [] (go "a") = [{ ID := 1, Description := go "a", Completed := false }] ∧
    DeleteTask (AddTask [] (go "a")) 1 = [] ∧
    AddTask (DeleteTask (AddTask [] (go "a")) 1) (go "b") =
      [{ ID := 1, Description := go "b", Completed := false }] := by
  decide

/-- C2 (as amended). An id is not reused when it was not the maximum: if a task with an id of
at least `i` remains after `DeleteTask c i`, and the calls of `AddTask` that follow (one per
description of `ds`) do not take the ids past the largest `int`, then these calls append
`ds.length` tasks whose ids are all greater than `i`. -/
theorem no_reuse_when_not_max (c : List Task) (i : Int) (ds : List GoString)
    (hrem : ∃ t ∈ DeleteTask c i, i ≤ t.ID)
    (hb : ∀ t ∈ c, t.ID + ds.length ≤ maxInt) (hn : (ds.length : Int) ≤ maxInt) :
    ∃ fresh : List Task, addAll (DeleteTask c i) ds = DeleteTask c i ++ fresh ∧
      fresh.length = ds.length ∧ ∀ t ∈ fresh, i < t.ID := by
  have hmax : maxIDLoop (DeleteTask c i) 0 + ds.length ≤ maxInt := by
    rcases maxIDLoop_attained (DeleteTask c i) 0 with h0 | ⟨t, ht, h0⟩
    · rw [h0]; omega
    · rw [← h0]; exact hb t (mem_of_mem_DeleteTask c i t ht)
  refine ⟨freshTasks (maxIDLoop (DeleteTask c i) 0) ds,
    addAll_eq_freshTasks ds (DeleteTask c i) hmax, freshTasks_length _ ds, ?_⟩
  intro t ht
  obtain ⟨u, hu, hiu⟩ := hrem
  have h1 := maxIDLoop_ge_mem (DeleteTask c i) 0 u hu
  have h2 := freshTasks_gt _ ds t ht
  omega

/-- C2, at a concrete collection: ids `1, 2, 3`, delete `2`, then two additions. -/
theorem no_reuse_when_not_max_witness :
    (∃ t ∈ DeleteTask [{ ID := 1, Description := go "a", Completed := false },
        { ID := 2, Description := go "b", Completed := false },
        { ID := 3, Description := go "c", Completed := false }] 2, (2 : Int) ≤ t.ID) ∧
    ∃ fresh : List Task,
      addAll (DeleteTask [{ ID := 1, Description := go "a", Completed := false },
        { ID := 2, Description := go "b", Completed := false },
        { ID := 3, Description := go "c", Completed := false }] 2) [go "d", go "e"] =
        DeleteTask [{ ID := 1, Description := go "a", Completed := false },
          { ID := 2, Description := go "b", Completed := false },
          { ID := 3, Description := go "c", Completed := false }] 2 ++ fresh ∧
      fresh.length = [go "d", go "e"].length ∧ ∀ t ∈ fresh, 2 < t.ID :=
  ⟨by decide, no_reuse_when_not_max _ 2 [go "d", go "e"] (by decide) (by decide) (by decide)⟩

/-- C3. For every list of `N` descriptions, with `N` in the range of a slice length (at most
the largest `int`), `N` calls of `AddTask` from the empty collection give `N` tasks whose
ids are `1, 2, ..., N` in order, strictly increasing, whose descriptions are the given ones
in order, and none of which is completed. -/
theorem adds_from_empty (ds : List GoString) (h : (ds.length : Int) ≤ maxInt) :
    (addAll [] ds).length = ds.length ∧
    ids (addAll [] ds) = (List.range ds.length).map (fun k => ((k : Nat) : Int) + 1) ∧
    (ids (addAll [] ds)).Pairwise (fun a b => a < b) ∧
    (addAll [] ds).map Task.Description = ds ∧
    ∀ t ∈ addAll [] ds, t.Completed = false := by
  have heq : addAll [] ds = freshTasks 0 ds := by
    have := addAll_eq_freshTasks ds [] (by simpa [maxIDLoop] using h)
    simpa [maxIDLoop] using this
  rw [heq]
  refine ⟨freshTasks_length 0 ds, ?_, freshTasks_increasing 0 ds, freshTasks_descriptions 0 ds,
    freshTasks_pending 0 ds⟩
  rw [freshTasks_ids]
  simp

/-- C3, at three descriptions. -/
theorem adds_from_empty_witness :
    (([go "x", go "y", go "z"].length : Int) ≤ maxInt) ∧
    ((addAll [] [go "x", go "y", go "z"]).length = [go "x", go "y", go "z"].length ∧
    ids (addAll [] [go "x", go "y", go "z"]) =
      (List.range [go "x", go "y", go "z"].length).map (fun k => ((k : Nat) : Int) + 1) ∧
    (ids (addAll [] [go "x", go "y", go "z"])).Pairwise (fun a b => a < b) ∧
    (addAll [] [go "x", go "y", go "z"]).map Task.Description =
      [go "x", go "y", go "z"] ∧
    ∀ t ∈ addAll [] [go "x", go "y", go "z"], t.Completed = false) :=
  ⟨by decide, adds_from_empty [go "x", go "y", go "z"] (by decide)⟩

/-- C4 (as amended). For every collection `c` whose ids are all below the largest `int` and
every description `d`, deleting the id `n` that `AddTask` gave the new task restores `c`. -/
theorem add_then_delete_restores (c : List Task) (d : GoString) (h : ∀ t ∈ c, t.ID < maxInt) :
    ∃ n : Int, AddTask c d = c ++ [{ ID := n, Description := d, Completed := false }] ∧
      DeleteTask (AddTask c d) n = c := by
  refine ⟨maxIDLoop c 0 + 1, AddTask_eq_of_lt c d (maxIDLoop_lt_maxInt c h), ?_⟩
  rw [AddTask_eq_of_lt c d (maxIDLoop_lt_maxInt c h)]
  have := DeleteTask_split c { ID := maxIDLoop c 0 + 1, Description := d, Completed := false } []
    (maxIDLoop c 0 + 1) (fun u hu => by have := maxIDLoop_ge_mem c 0 u hu; omega) rfl
  simpa using this

/-- C4, at a concrete collection. -/
theorem add_then_delete_restores_witness :
    (∀ t ∈ [({ ID := 2, Description := go "a", Completed := true } : Task)], t.ID < maxInt) ∧
    ∃ n : Int, AddTask [{ ID := 2, Description := go "a", Completed := true }] (go "b") =
        [{ ID := 2, Description := go "a", Completed := true }] ++
          [{ ID := n, Description := go "b", Completed := false }] ∧
      DeleteTask (AddTask [{ ID := 2, Description := go "a", Completed := true }] (go "b")) n =
        [{ ID := 2, Description := go "a", Completed := true }] :=
  ⟨by decide, add_then_delete_restores [{ ID := 2, Description := go "a", Completed := true }]
    (go "b") (by decide)⟩

/-- C4 fails as stated. When the collection holds the smallest and the largest `int` as ids,
the new task gets the smallest `int` again, and deleting that id removes the old first task
instead of the new one. -/
theorem add_then_delete_differs :
    AddTask [{ ID := -9223372036854775808, Description := go "a", Completed := false },
        { ID := 9223372036854775807, Description := go "b", Completed := false }] (go "d") =
      [{ ID := -9223372036854775808, Description := go "a", Completed := false },
        { ID := 9223372036854775807, Description := go "b", Completed := false }] ++
        [{ ID := -9223372036854775808, Description := go "d", Completed := false }] ∧
    DeleteTask (AddTask [{ ID := -9223372036854775808, Description := go "a", Completed := false },
        { ID := 9223372036854775807, Description := go "b", Completed := false }] (go "d"))
        (-9223372036854775808) =
      [{ ID := 9223372036854775807, Description := go "b", Completed := false },
        { ID := -9223372036854775808, Description := go "d", Completed := false }] ∧
    DeleteTask (AddTask [{ ID := -9223372036854775808, Description := go "a", Completed := false },
        { ID := 9223372036854775807, Description := go "b", Completed := false }] (go "d"))
        (-9223372036854775808) ≠
      [{ ID := -9223372036854775808, Description := go "a", Completed := false },
        { ID := 9223372036854775807, Description := go "b", Completed := false }] := by
  decide

/-- C5. For every collection `c` and id `i`: either `c` splits as `pre ++ t :: post` where
`t` is the first task with id `i` (no task of `pre` has it), and `DeleteTask c i` is
`pre ++ post`, one task shorter, every other task kept in place, later tasks with the
same id included; or no task of `c` has id `i` and `DeleteTask c i` is `c`. -/
theorem DeleteTask_removes_first (c : List Task) (i : Int) :
    (∃ pre t post, c = pre ++ t :: post ∧ (∀ u ∈ pre, u.ID ≠ i) ∧ t.ID = i ∧
        DeleteTask c i = pre ++ post ∧ (DeleteTask c i).length + 1 = c.length) ∨
      ((∀ t ∈ c, t.ID ≠ i) ∧ DeleteTask c i = c) := by
  rcases findIndexFrom_cases c i 0 with ⟨pre, t, post, hsplit, hpre, ht, _⟩ | ⟨hnone, _⟩
  · left
    refine ⟨pre, t, post, hsplit, hpre, ht, ?_, ?_⟩
    · rw [hsplit]; exact DeleteTask_split pre t post i hpre ht
    · rw [hsplit, DeleteTask_split pre t post i hpre ht]
      simp only [List.length_append, List.length_cons]
      omega
  · right
    exact ⟨hnone, DeleteTask_absent c i hnone⟩

/-- C6. For every collection `c` and id `i`: either `c` splits as `pre ++ t :: post` where
`t` is the first task with id `i`, and `MarkTaskComplete c i` is `c` with `t` replaced by
`t` with `Completed = true` (same id, same description, same length, every other task
unchanged); or no task of `c` has id `i` and `MarkTaskComplete c i` is `c`. On the empty
collection the result is empty. -/
theorem MarkTaskComplete_sets_first (c : List Task) (i : Int) :
    ((∃ pre t post, c = pre ++ t :: post ∧ (∀ u ∈ pre, u.ID ≠ i) ∧ t.ID = i ∧
        MarkTaskComplete c i =
          pre ++ { ID := t.ID, Description := t.Description, Completed := true } :: post) ∨
      ((∀ t ∈ c, t.ID ≠ i) ∧ MarkTaskComplete c i = c)) ∧
    (MarkTaskComplete c i).length = c.length ∧
    MarkTaskComplete [] i = [] := by
  refine ⟨?_, ?_, by simp [MarkTaskComplete, findIndexFrom]⟩
  · rcases findIndexFrom_cases c i 0 with ⟨pre, t, post, hsplit, hpre, ht, _⟩ | ⟨hnone, _⟩
    · left
      refine ⟨pre, t, post, hsplit, hpre, ht, ?_⟩
      rw [hsplit]; exact MarkTaskComplete_split pre t post i hpre ht
    · right
      exact ⟨hnone, MarkTaskComplete_absent c i hnone⟩
  · have := congrArg List.length (ids_MarkTaskComplete c i)
    simpa [ids] using this

/-- C7 (as amended). For a collection `c` with pairwise distinct ids: `AddTask` returns
distinct ids whenever the ids of `c` are all below the largest `int`; `MarkTaskComplete`
and `DeleteTask` always return distinct ids; and every collection reached from the empty one
by a sequence of these operations no longer than the largest `int` has distinct ids. -/
theorem unique_ids_preserved (c : List Task) (d : GoString) (i : Int) (ops : List Op)
    (hc : (ids c).Nodup) :
    ((∀ t ∈ c, t.ID < maxInt) → (ids (AddTask c d)).Nodup) ∧
    (ids (MarkTaskComplete c i)).Nodup ∧
    (ids (DeleteTask c i)).Nodup ∧
    ((ops.length : Int) ≤ maxInt → (ids (runOps [] ops)).Nodup) := by
  refine ⟨fun hb => AddTask_nodup c d hc hb, ?_, ?_, ?_⟩
  · rw [ids_MarkTaskComplete]; exact hc
  · exact List.Nodup.sublist (ids_DeleteTask_sublist c i) hc
  · intro hlen
    exact runOps_nodup ops [] 0 (le_refl 0) (by simp [ids]) (by simp [ids]) (by omega)

/-- C7, at a concrete collection and a concrete run. -/
theorem unique_ids_preserved_witness :
    (ids [{ ID := 1, Description := go "a", Completed := false },
      { ID := 4, Description := go "b", Completed := false }]).Nodup ∧
    (ids (AddTask [{ ID := 1, Description := go "a", Completed := false },
      { ID := 4, Description := go "b", Completed := false }] (go "c"))).Nodup ∧
    (ids (MarkTaskComplete [{ ID := 1, Description := go "a", Completed := false },
      { ID := 4, Description := go "b", Completed := false }] 4)).Nodup ∧
    (ids (DeleteTask [{ ID := 1, Description := go "a", Completed := false },
      { ID := 4, Description := go "b", Completed := false }] 4)).Nodup ∧
    (ids (runOps []
      [Op.add (go "a"), Op.add (go "b"), Op.delete 1, Op.complete 2, Op.add (go "c")])).Nodup :=
  have h := unique_ids_preserved [{ ID := 1, Description := go "a", Completed := false },
      { ID := 4, Description := go "b", Completed := false }] (go "c") 4
      [Op.add (go "a"), Op.add (go "b"), Op.delete 1, Op.complete 2, Op.add (go "c")] (by decide)
  ⟨by decide, h.1 (by decide), h.2.1, h.2.2.1, h.2.2.2 (by decide)⟩

/-- C7 fails as stated. The ids `-2^63` and `2^63 - 1` are distinct, and `AddTask` appends a
second task with id `-2^63`. -/
theorem AddTask_duplicates_id :
    (ids [{ ID := -9223372036854775808, Description := go "a", Completed := false },
      { ID := 9223372036854775807, Description := go "b", Completed := false }]).Nodup ∧
    ids (AddTask [{ ID := -9223372036854775808, Description := go "a", Completed := false },
      { ID := 9223372036854775807, Description := go "b", Completed := false }] (go "d")) =
      [-9223372036854775808, 9223372036854775807, -9223372036854775808] ∧
    ¬ (ids (AddTask [{ ID := -9223372036854775808, Description := go "a", Completed := false },
      { ID := 9223372036854775807, Description := go "b", Completed := false }] (go "d"))).Nodup := by
  decide

/-! ## The command loop -/

theorem fieldsLoop_fields (cs cur : GoString) (hcur : ∀ ch ∈ cur, isSpace ch = false) :
    ∀ s ∈ fieldsLoop cur cs, s ≠ [] ∧ ∀ ch ∈ s, isSpace ch = false := by
  induction cs generalizing cur with
  | nil =>
    intro s hs
    by_cases hnil : cur = []
    · simp [fieldsLoop, hnil] at hs
    · simp only [fieldsLoop, hnil, if_false, List.mem_singleton] at hs
      subst hs
      exact ⟨by simpa using hnil, fun ch hch => hcur ch (by simpa using hch)⟩
  | cons c cs ih =>
    intro s hs
    by_cases hc : isSpace c = true
    · by_cases hnil : cur = []
      · simp only [fieldsLoop, hc, hnil, if_true] at hs
        exact ih [] (by simp) s hs
      · simp only [fieldsLoop, hc, hnil, if_true, if_false, List.mem_cons] at hs
        rcases hs with hs | hs
        · subst hs
          exact ⟨by simpa using hnil, fun ch hch => hcur ch (by simpa using hch)⟩
        · exact ih [] (by simp) s hs
    · simp only [fieldsLoop, hc] at hs
      refine ih (c :: cur) ?_ s hs
      intro ch hch
      rcases List.mem_cons.mp hch with h | h
      · subst h; simpa using hc
      · exact hcur ch h

/-- Every field of `strings.Fields` is non-empty and holds no white space. -/
theorem Fields_fields (input : GoString) :
    ∀ s ∈ Fields input, s ≠ [] ∧ ∀ ch ∈ s, isSpace ch = false :=
  fieldsLoop_fields input [] (by simp)

theorem Join_head (a : GoString) (rest : List GoString) (sep : GoString) :
    ∃ tail, Join (a :: rest) sep = a ++ tail := by
  cases rest with
  | nil => exact ⟨[], by simp [Join]⟩
  | cons b rest => exact ⟨sep ++ Join (b :: rest) sep, by simp [Join]⟩

theorem Join_last (a : GoString) (rest : List GoString) (sep : GoString) :
    ∃ front, Join (a :: rest) sep =
      front ++ (a :: rest).getLast (List.cons_ne_nil a rest) := by
  induction rest generalizing a with
  | nil => exact ⟨[], by simp [Join]⟩
  | cons b rest ih =>
    obtain ⟨front, hfront⟩ := ih b
    refine ⟨a ++ sep ++ front, ?_⟩
    simp only [Join, hfront, List.append_assoc]
    simp

theorem trimLeft_of_head (l : GoString) (h : ∀ ch, l.head? = some ch → isSpace ch = false) :
    trimLeft l = l := by
  cases l with
  | nil => rfl
  | cons c cs => simp [trimLeft, h c (by simp)]

theorem fieldsLoop_trimLeft (l : GoString) : fieldsLoop [] (trimLeft l) = fieldsLoop [] l := by
  induction l with
  | nil => rfl
  | cons c cs ih =>
    by_cases hc : isSpace c = true
    · simp [trimLeft, fieldsLoop, hc, ih]
    · simp [trimLeft, hc]

theorem trimLeft_split (l : GoString) :
    ∃ ws, l = ws ++ trimLeft l ∧ ∀ ch ∈ ws, isSpace ch = true := by
  induction l with
  | nil => exact ⟨[], by simp [trimLeft]⟩
  | cons c cs ih =>
    by_cases hc : isSpace c = true
    · obtain ⟨ws, hws, hall⟩ := ih
      refine ⟨c :: ws, ?_, ?_⟩
      · simp only [trimLeft, hc, if_true, List.cons_append]
        rw [← hws]
      · intro ch hch
        rcases List.mem_cons.mp hch with h | h
        · subst h; exact hc
        · exact hall ch h
    · exact ⟨[], by simp [trimLeft, hc]⟩

theorem fieldsLoop_spaces (ws cur : GoString) (hall : ∀ ch ∈ ws, isSpace ch = true) :
    fieldsLoop cur ws = fieldsLoop cur [] := by
  induction ws generalizing cur with
  | nil => rfl
  | cons c cs ih =>
    have hc : isSpace c = true := hall c (List.mem_cons_self _ _)
    have hcs : ∀ ch ∈ cs, isSpace ch = true := fun ch h => hall ch (List.mem_cons_of_mem _ h)
    by_cases hnil : cur = []
    · simp [fieldsLoop, hc, hnil, ih [] hcs]
    · simp [fieldsLoop, hc, hnil, ih [] hcs]

theorem fieldsLoop_append_spaces (l ws cur : GoString) (hall : ∀ ch ∈ ws, isSpace ch = true) :
    fieldsLoop cur (l ++ ws) = fieldsLoop cur l := by
  induction l generalizing cur with
  | nil => simpa using fieldsLoop_spaces ws cur hall
  | cons c cs ih =>
    by_cases hc : isSpace c = true
    · by_cases hnil : cur = []
      · simp [fieldsLoop, hc, hnil, ih []]
      · simp [fieldsLoop, hc, hnil, ih []]
    · simp [fieldsLoop, hc, ih (c :: cur)]

/-- The call of `strings.TrimSpace` before `strings.Fields` does not change the fields. -/
theorem Fields_TrimSpace (input : GoString) : Fields (TrimSpace input) = Fields input := by
  obtain ⟨ws, hws, hall⟩ := trimLeft_split (trimLeft input).reverse
  have hrev : trimLeft input = (trimLeft (trimLeft input).reverse).reverse ++ ws.reverse := by
    have := congrArg List.reverse hws
    simpa using this
  have h1 : fieldsLoop [] (trimLeft (trimLeft input).reverse).reverse =
      fieldsLoop [] (trimLeft input) := by
    conv_rhs => rw [hrev]
    exact (fieldsLoop_append_spaces _ ws.reverse []
      (fun ch hch => hall ch (List.mem_reverse.mp hch))).symm
  show fieldsLoop [] (trimLeft (trimLeft input).reverse).reverse = fieldsLoop [] input
  rw [h1, fieldsLoop_trimLeft]

/-- C9. For every collection `c` and every input line that is an unknown command, an `add`
without description, a `complete` or `delete` without exactly one argument or with an
argument that `Atoi` rejects, or a `complete` or `delete` of an id that no task of `c`
has, the iteration leaves `tasks` equal to `c` and the loop goes on. -/
theorem errors_keep_collection (c : List Task) (input : GoString)
    (h : (∃ command rest, Fields input = command :: rest ∧ command ≠ go "add" ∧
            command ≠ go "list" ∧ command ≠ go "complete" ∧ command ≠ go "delete" ∧
            command ≠ go "help" ∧ command ≠ go "exit") ∨
         Fields input = [go "add"] ∨
         (∃ command rest, Fields input = command :: rest ∧
            (command = go "complete" ∨ command = go "delete") ∧ rest.length ≠ 1) ∨
         (∃ command arg, Fields input = [command, arg] ∧
            (command = go "complete" ∨ command = go "delete") ∧ Atoi arg = none) ∨
         (∃ command arg id, Fields input = [command, arg] ∧
            (command = go "complete" ∨ command = go "delete") ∧ Atoi arg = some id ∧
            ∀ t ∈ c, t.ID ≠ id)) :
    (loopBody c input).tasks = c ∧ (loopBody c input).running = true := by
  rw [← Fields_TrimSpace input] at h
  have hca : go "complete" ≠ go "add" := by decide
  have hcl : go "complete" ≠ go "list" := by decide
  have hda : go "delete" ≠ go "add" := by decide
  have hdl : go "delete" ≠ go "list" := by decide
  have hdc : go "delete" ≠ go "complete" := by decide
  rcases h with ⟨command, rest, hargs, h1, h2, h3, h4, h5, h6⟩ | hargs |
    ⟨command, rest, hargs, hcmd, hlen⟩ | ⟨command, arg, hargs, hcmd, hatoi⟩ |
    ⟨command, arg, id, hargs, hcmd, hatoi, hnone⟩
  · simp [loopBody, hargs, h1, h2, h3, h4, h5, h6]
  · simp [loopBody, hargs]
  · rcases hcmd with rfl | rfl
    · cases rest with
      | nil => simp [loopBody, hargs, hca, hcl]
      | cons a rest =>
        cases rest with
        | nil => simp at hlen
        | cons b rest => simp [loopBody, hargs, hca, hcl]
    · cases rest with
      | nil => simp [loopBody, hargs, hda, hdl, hdc]
      | cons a rest =>
        cases rest with
        | nil => simp at hlen
        | cons b rest => simp [loopBody, hargs, hda, hdl, hdc]
  · rcases hcmd with rfl | rfl
    · simp [loopBody, hargs, hatoi, hca, hcl]
    · simp [loopBody, hargs, hatoi, hda, hdl, hdc]
  · rcases hcmd with rfl | rfl
    · simp [loopBody, hargs, hatoi, hca, hcl, MarkTaskComplete_absent c id hnone]
    · simp [loopBody, hargs, hatoi, hda, hdl, hdc, DeleteTask_absent c id hnone]

/-- C9, on the line `complete 5` and the empty collection. -/
theorem errors_keep_collection_witness :
    (Fields (go "complete 5\n") = [go "complete", go "5"] ∧ Atoi (go "5") = some 5 ∧
      ∀ t ∈ ([] : List Task), t.ID ≠ 5) ∧
    (loopBody [] (go "complete 5\n")).tasks = [] ∧
    (loopBody [] (go "complete 5\n")).running = true :=
  ⟨by decide, errors_keep_collection [] (go "complete 5\n")
    (Or.inr (Or.inr (Or.inr (Or.inr ⟨go "complete", go "5", 5, by decide, Or.inl rfl,
      by decide, by decide⟩))))⟩

/-- What `strings.Join` with a single space gives, written without `Join`: the first field,
then each further field preceded by one space. -/
theorem Join_spaces (a : GoString) (rest : List GoString) :
    Join (a :: rest) (go " ") = a ++ (rest.map (fun s => GoRune.rune ' ' :: s)).flatten := by
  induction rest generalizing a with
  | nil => simp [Join]
  | cons b rest ih =>
    have hsep : go " " = [GoRune.rune ' '] := rfl
    have hb := ih b
    rw [hsep] at hb
    simp only [Join, hsep, hb, List.map_cons, List.flatten_cons, List.append_assoc,
      List.cons_append, List.nil_append]

theorem fieldsLoop_field (a cur x : GoString) (ha : ∀ ch ∈ a, isSpace ch = false) :
    fieldsLoop cur (a ++ x) = fieldsLoop (a.reverse ++ cur) x := by
  induction a generalizing cur with
  | nil => rfl
  | cons c cs ih =>
    have hc : isSpace c = false := ha c (List.mem_cons_self _ _)
    have hcs := ih (c :: cur) (fun ch h => ha ch (List.mem_cons_of_mem _ h))
    simp only [List.cons_append, fieldsLoop, hc, List.reverse_cons, List.append_assoc,
      List.singleton_append]
    exact hcs

/-- Fields that are non-empty and free of white space, written one after the other with
single spaces between them, are read back by `strings.Fields` as the same fields. -/
theorem fieldsLoop_spaced (rest : List GoString) (a cur : GoString)
    (ha : ∀ ch ∈ a, isSpace ch = false) (hne : cur.reverse ++ a ≠ [])
    (hrest : ∀ s ∈ rest, s ≠ [] ∧ ∀ ch ∈ s, isSpace ch = false) :
    fieldsLoop cur (a ++ (rest.map (fun s => GoRune.rune ' ' :: s)).flatten) =
      (cur.reverse ++ a) :: rest := by
  induction rest generalizing a cur with
  | nil =>
    have h1 := fieldsLoop_field a cur [] ha
    simp only [List.append_nil] at h1
    have hne2 : a.reverse ++ cur ≠ [] := by
      intro h
      apply hne
      have := congrArg List.reverse h
      simpa using this
    simp [h1, fieldsLoop, hne2]
  | cons b rest ih =>
    have hb := hrest b (List.mem_cons_self _ _)
    have hrec := ih b [] hb.2 (by simpa using hb.1)
      (fun s hs => hrest s (List.mem_cons_of_mem _ hs))
    have hne2 : a.reverse ++ cur ≠ [] := by
      intro h
      apply hne
      have := congrArg List.reverse h
      simpa using this
    have hsp : isSpace (GoRune.rune ' ') = true := rfl
    rw [fieldsLoop_field a cur _ ha]
    simp only [List.map_cons, List.flatten_cons, List.cons_append, fieldsLoop, hsp, if_true,
      hne2, if_false]
    simp only [List.reverse_nil, List.nil_append] at hrec
    have hrec2 : fieldsLoop []
        (List.append b (List.map (fun s => GoRune.rune ' ' :: s) rest).flatten) = b :: rest :=
      hrec
    rw [hrec2]
    simp

/-- C10. For every collection `c` and every input line whose fields are `add` followed by at
least one more field, the iteration appends exactly one task to `c`; its description is the
first remaining field followed by each further field preceded by one space (the remaining
fields joined with single spaces, each field non-empty and free of white space), so that
`strings.Fields` reads the remaining fields back from it; it is non-empty, neither starts
nor ends with white space, and the task is not completed. -/
theorem add_line_appends (c : List Task) (input : GoString) (tok : GoString)
    (rest : List GoString) (h : Fields input = go "add" :: tok :: rest) :
    ∃ t : Task, (loopBody c input).tasks = c ++ [t] ∧
      t.Description = tok ++ (rest.map (fun s => GoRune.rune ' ' :: s)).flatten ∧
      Fields t.Description = tok :: rest ∧
      t.Completed = false ∧
      (∀ s ∈ tok :: rest, s ≠ [] ∧ ∀ ch ∈ s, isSpace ch = false) ∧
      t.Description ≠ [] ∧
      (∀ ch, t.Description.head? = some ch → isSpace ch = false) ∧
      (∀ ch, t.Description.getLast? = some ch → isSpace ch = false) ∧
      TrimSpace t.Description = t.Description := by
  rw [← Fields_TrimSpace input] at h
  have hf : ∀ s ∈ tok :: rest, s ≠ [] ∧ ∀ ch ∈ s, isSpace ch = false := by
    intro s hs
    exact Fields_fields (TrimSpace input) s (by rw [h]; exact List.mem_cons_of_mem _ hs)
  obtain ⟨tail, htail⟩ := Join_head tok rest (go " ")
  obtain ⟨front, hfront⟩ := Join_last tok rest (go " ")
  have htok := hf tok (List.mem_cons_self _ _)
  have hlast := hf ((tok :: rest).getLast (List.cons_ne_nil tok rest)) (List.getLast_mem _)
  have hhead : ∀ ch, (Join (tok :: rest) (go " ")).head? = some ch → isSpace ch = false := by
    intro ch hch
    rw [htail] at hch
    obtain ⟨x, xs, hx⟩ := List.exists_cons_of_ne_nil htok.1
    rw [hx] at hch
    simp only [List.cons_append, List.head?_cons, Option.some.injEq] at hch
    exact htok.2 ch (by rw [hx, ← hch]; exact List.mem_cons_self _ _)
  have hend : ∀ ch, (Join (tok :: rest) (go " ")).getLast? = some ch →
      isSpace ch = false := by
    intro ch hch
    rw [hfront, List.getLast?_append_of_ne_nil _ hlast.1] at hch
    exact hlast.2 ch (List.mem_of_getLast?_eq_some hch)
  have hne : Join (tok :: rest) (go " ") ≠ [] := by
    intro hempty
    rw [htail] at hempty
    exact htok.1 (List.append_eq_nil.mp hempty).1
  have hback : Fields (Join (tok :: rest) (go " ")) = tok :: rest := by
    have := fieldsLoop_spaced rest tok [] htok.2 (by simpa using htok.1)
      (fun s hs => hf s (List.mem_cons_of_mem _ hs))
    simpa [Fields, Join_spaces] using this
  refine ⟨⟨wrapInt (maxIDLoop c 0 + 1), Join (tok :: rest) (go " "), false⟩,
    ?_, Join_spaces tok rest, hback, rfl, hf, hne, hhead, hend, ?_⟩
  · have hlen : ¬ (rest.length + 1 + 1 < 2) := by omega
    simp [loopBody, h, AddTask, hlen]
  · show (trimLeft (trimLeft (Join (tok :: rest) (go " "))).reverse).reverse =
      Join (tok :: rest) (go " ")
    rw [trimLeft_of_head _ hhead, trimLeft_of_head _ (by simpa [List.head?_reverse] using hend),
      List.reverse_reverse]

/-- C10, on the line `add buy milk` typed with extra blanks: the stored description is
`buy milk`. -/
theorem add_line_appends_witness :
    Fields (go "  add  buy   milk \n") = go "add" :: go "buy" :: [go "milk"] ∧
    (loopBody [] (go "  add  buy   milk \n")).tasks = [⟨1, go "buy milk", false⟩] ∧
    ∃ t : Task, (loopBody [] (go "  add  buy   milk \n")).tasks = [] ++ [t] ∧
      t.Description = go "buy milk" ∧
      Fields t.Description = go "buy" :: [go "milk"] ∧
      t.Completed = false ∧
      (∀ s ∈ go "buy" :: [go "milk"], s ≠ [] ∧ ∀ ch ∈ s, isSpace ch = false) ∧
      t.Description ≠ [] ∧
      (∀ ch, t.Description.head? = some ch → isSpace ch = false) ∧
      (∀ ch, t.Description.getLast? = some ch → isSpace ch = false) ∧
      TrimSpace t.Description = t.Description := by
  obtain ⟨t, htasks, hdesc, hrest⟩ :=
    add_line_appends [] (go "  add  buy   milk \n") (go "buy") [go "milk"] (by decide)
  have hlit : go "buy" ++ ([go "milk"].map (fun s => GoRune.rune ' ' :: s)).flatten =
      go "buy milk" := by decide
  exact ⟨by decide, by decide, t, htasks, hdesc.trans hlit, hrest⟩

/-! ## Numbers -/

theorem digit_toNat (d : Nat) (h : d < 10) : (Char.ofNat (48 + d)).toNat = 48 + d := by
  interval_cases d <;> rfl

theorem parseDigits_append (l : List Char) (acc d : Nat) (h : d < 10) :
    parseDigits acc (l ++ [Char.ofNat (48 + d)]) =
      (parseDigits acc l).map (fun v => v * 10 + d) := by
  induction l generalizing acc with
  | nil =>
    have := digit_toNat d h
    simp [parseDigits, this]
    omega
  | cons c cs ih =>
    by_cases hc : 48 ≤ c.toNat ∧ c.toNat ≤ 57
    · simp only [List.cons_append, parseDigits, hc, and_self, if_true]
      exact ih _
    · simp [parseDigits, hc]

theorem parseDigits_natDigits (fuel n : Nat) (h : n < fuel) :
    parseDigits 0 (natDigits fuel n) = some n := by
  induction fuel generalizing n with
  | zero => omega
  | succ fuel ih =>
    by_cases hn : n < 10
    · have := digit_toNat n hn
      simp [natDigits, hn, parseDigits, this]
      omega
    · have hdiv : n / 10 < fuel := by omega
      have hmod : n % 10 < 10 := Nat.mod_lt _ (by decide)
      simp only [natDigits, hn, if_false]
      rw [parseDigits_append _ _ _ hmod, ih _ hdiv]
      simp only [Option.map_some']
      congr 1
      omega

theorem natDigits_ne_nil (fuel n : Nat) (h : n < fuel) : natDigits fuel n ≠ [] := by
  cases fuel with
  | zero => omega
  | succ fuel =>
    by_cases hn : n < 10
    · simp [natDigits, hn]
    · simp [natDigits, hn]

theorem isDigit_digit (d : Nat) (h : d < 10) : isDigit (Char.ofNat (48 + d)) = true := by
  interval_cases d <;> rfl

theorem natDigits_isDigit (fuel n : Nat) : ∀ c ∈ natDigits fuel n, isDigit c = true := by
  induction fuel generalizing n with
  | zero => simp [natDigits]
  | succ fuel ih =>
    intro c hc
    by_cases hn : n < 10
    · simp only [natDigits, hn, if_true, List.mem_singleton] at hc
      subst hc
      exact isDigit_digit n hn
    · simp only [natDigits, hn, if_false, List.mem_append, List.mem_singleton] at hc
      rcases hc with hc | hc
      · exact ih _ c hc
      · subst hc
        exact isDigit_digit _ (Nat.mod_lt _ (by decide))

theorem natDigits_head (fuel n : Nat) (h : n < fuel) (hpos : 0 < n) :
    ∃ d ds, natDigits fuel n = d :: ds ∧ d ≠ '0' := by
  induction fuel generalizing n with
  | zero => omega
  | succ fuel ih =>
    by_cases hn : n < 10
    · refine ⟨Char.ofNat (48 + n), [], by simp [natDigits, hn], ?_⟩
      interval_cases n <;> decide
    · obtain ⟨d, ds, hd, hne⟩ := ih (n / 10) (by omega) (by omega)
      exact ⟨d, ds ++ [Char.ofNat (48 + n % 10)], by simp [natDigits, hn, hd], hne⟩

theorem dropDigits_of_digits (l : List Char) (h : ∀ c ∈ l, isDigit c = true) :
    dropDigits l = [] := by
  induction l with
  | nil => rfl
  | cons c cs ih =>
    simp only [dropDigits, h c (List.mem_cons_self _ _), if_true]
    exact ih (fun x hx => h x (List.mem_cons_of_mem _ hx))

theorem validInt_natDigits (n : Nat) : validInt (natDigits (n + 1) n) = true := by
  by_cases h0 : n = 0
  · subst h0; rfl
  · obtain ⟨d, ds, hd, hne⟩ := natDigits_head (n + 1) n (by omega) (by omega)
    have hall := natDigits_isDigit (n + 1) n
    rw [hd] at hall
    have hdig : isDigit d = true := hall d (List.mem_cons_self _ _)
    have hds : dropDigits ds = [] :=
      dropDigits_of_digits ds (fun x hx => hall x (List.mem_cons_of_mem _ hx))
    simp [hd, validInt, hne, hdig, hds, validFrac]

theorem validNumber_formatInt (v : Int) : validNumber (formatInt v) = true := by
  by_cases hv : v < 0
  · simp only [formatInt, hv, if_true, validNumber]
    simp [validInt_natDigits]
  · obtain ⟨d, ds, hd⟩ := List.exists_cons_of_ne_nil
      (natDigits_ne_nil (v.natAbs + 1) v.natAbs (by omega))
    have hall := natDigits_isDigit (v.natAbs + 1) v.natAbs
    have hvalid := validInt_natDigits v.natAbs
    rw [hd] at hall hvalid
    have hdig : isDigit d = true := hall d (List.mem_cons_self _ _)
    have hne : d ≠ '-' := by
      intro h
      rw [h] at hdig
      exact absurd hdig (by decide)
    simp [formatInt, hv, hd, validNumber, hne, hvalid]

theorem parseInt_formatInt (v : Int) (h1 : minInt ≤ v) (h2 : v ≤ maxInt) :
    parseInt (formatInt v) = some v := by
  have hparse := parseDigits_natDigits (v.natAbs + 1) v.natAbs (by omega)
  have hnil := natDigits_ne_nil (v.natAbs + 1) v.natAbs (by omega)
  by_cases hv : v < 0
  · have habs : |v| = -v := abs_of_neg hv
    simp [formatInt, hv, parseInt, hparse, hnil, habs, h1, h2]
  · obtain ⟨d, ds, hd⟩ := List.exists_cons_of_ne_nil hnil
    have hall := natDigits_isDigit (v.natAbs + 1) v.natAbs
    rw [hd] at hall hparse
    have hdig : isDigit d = true := hall d (List.mem_cons_self _ _)
    have hplus : d ≠ '+' := by
      intro h; rw [h] at hdig; exact absurd hdig (by decide)
    have hminus : d ≠ '-' := by
      intro h; rw [h] at hdig; exact absurd hdig (by decide)
    have habs : ((v.natAbs : Nat) : Int) = v := by omega
    simp [formatInt, hv, hd, parseInt, hplus, hminus, hparse, habs, h1, h2]

/-! ## Strings -/

theorem hexVal_hexDigit (d : Nat) (h : d < 16) : hexVal (hexDigit d) = some d := by
  interval_cases d <;> rfl

theorem char_eq_of_toNat (c : Char) (n : Nat) (h : c.toNat = n) : Char.ofNat n = c := by
  rw [← h]
  exact Char.ofNat_toNat c

theorem lexString_appendRune (r : GoRune) (fuel : Nat) (rest acc : GoString) :
    lexString (fuel + 1) ((appendRune r).map GoRune.rune ++ rest) acc =
      lexString fuel rest (acc ++ [coerceRune r]) := by
  cases r with
  | byte b => rfl
  | rune c =>
    by_cases h1 : c = '"' ∨ c = '\\'
    · rcases h1 with rfl | rfl <;> rfl
    · have hq : c ≠ '"' := fun h => h1 (Or.inl h)
      have hb : c ≠ '\\' := fun h => h1 (Or.inr h)
      by_cases h8 : c.toNat = 8
      · have := char_eq_of_toNat c 8 h8
        subst this; rfl
      by_cases h12 : c.toNat = 12
      · have := char_eq_of_toNat c 12 h12
        subst this; rfl
      by_cases h10 : c.toNat = 10
      · have := char_eq_of_toNat c 10 h10
        subst this; rfl
      by_cases h13 : c.toNat = 13
      · have := char_eq_of_toNat c 13 h13
        subst this; rfl
      by_cases h9 : c.toNat = 9
      · have := char_eq_of_toNat c 9 h9
        subst this; rfl
      by_cases hesc : c.toNat < 32 ∨ c = '<' ∨ c = '>' ∨ c = '&'
      · have hlt : c.toNat < 64 := by
          rcases hesc with h | rfl | rfl | rfl
          · omega
          · decide
          · decide
          · decide
        have hhi := hexVal_hexDigit (c.toNat / 16) (by omega)
        have hlo := hexVal_hexDigit (c.toNat % 16) (by omega)
        have hval : ((0 * 16 + 0) * 16 + c.toNat / 16) * 16 + c.toNat % 16 = c.toNat := by omega
        have hchar := Char.ofNat_toNat c
        have hsur : ¬ (55296 ≤ c.toNat ∧ c.toNat ≤ 57343) := by omega
        have h0 : hexVal '0' = some 0 := rfl
        simp only [appendRune, h1, h8, h12, h10, h13, h9, hesc, if_true, if_false, List.map_cons,
          List.map_nil, List.cons_append, List.nil_append, lexString]
        have hval2 : c.toNat / 16 * 16 + c.toNat % 16 = c.toNat := by omega
        simp [hex4, h0, hhi, hlo, hval2, hchar, hsur, coerceRune]
      by_cases hls : c.toNat = 8232
      · have := char_eq_of_toNat c 8232 hls
        subst this; rfl
      by_cases hps : c.toNat = 8233
      · have := char_eq_of_toNat c 8233 hps
        subst this; rfl
      · have hge : ¬ c.toNat < 32 := fun h => hesc (Or.inl h)
        have hhtml : ¬ (c = '<' ∨ c = '>' ∨ c = '&') := fun h => hesc (Or.inr h)
        simp [appendRune, h1, h8, h12, h10, h13, h9, hls, hps, lexString, hq, hb, hge,
          hhtml, coerceRune]

theorem appendRune_ne_nil (r : GoRune) : appendRune r ≠ [] := by
  cases r with
  | byte b => simp [appendRune]
  | rune c =>
    simp only [appendRune]
    repeat' split
    all_goals simp

theorem length_le_quotedBody (s : GoString) : s.length ≤ (quotedBody s).length := by
  induction s with
  | nil => simp [quotedBody]
  | cons r rs ih =>
    have h := appendRune_ne_nil r
    have hpos : 0 < (appendRune r).length := List.length_pos.mpr h
    simp only [quotedBody, List.map_cons, List.flatten_cons, List.length_append, List.length_cons]
      at ih ⊢
    omega

theorem lexString_quotedBody (s : GoString) (fuel : Nat) (rest acc : GoString)
    (h : s.length < fuel) :
    lexString fuel ((quotedBody s).map GoRune.rune ++ GoRune.rune '"' :: rest) acc =
      some (acc ++ s.map coerceRune, rest) := by
  induction s generalizing fuel acc with
  | nil =>
    cases fuel with
    | zero => simp at h
    | succ fuel => simp [quotedBody, lexString]
  | cons r rs ih =>
    cases fuel with
    | zero => simp at h
    | succ fuel =>
      have hstep := lexString_appendRune r fuel
        ((quotedBody rs).map GoRune.rune ++ GoRune.rune '"' :: rest) acc
      have hrec := ih fuel (acc ++ [coerceRune r]) (by simpa using h)
      simp only [quotedBody, List.map_cons, List.flatten_cons, List.map_append,
        List.append_assoc] at hstep hrec ⊢
      rw [hstep, hrec]
      simp

/-! ## Lexing the encoder's output -/

theorem Lexes_nil : Lexes [] [] := by
  intro f hf
  cases f with
  | zero => simp at hf
  | succ f => rfl

theorem Lexes_space (c : Char) (hc : c = ' ' ∨ c = '\t' ∨ c = '\r' ∨ c = '\n')
    (rest : GoString) (ts : List Token) (h : Lexes rest ts) :
    Lexes (GoRune.rune c :: rest) ts := by
  intro f hf
  cases f with
  | zero => simp at hf
  | succ f =>
    simp only [List.length_cons] at hf
    simp only [lex, hc, if_true]
    exact h f (by omega)

theorem Lexes_lbrack (rest : GoString) (ts : List Token) (h : Lexes rest ts) :
    Lexes (GoRune.rune '[' :: rest) (Token.lbrack :: ts) := by
  intro f hf
  cases f with
  | zero => simp at hf
  | succ f =>
    simp only [List.length_cons] at hf
    simp [lex, h f (by omega)]

theorem Lexes_rbrack (rest : GoString) (ts : List Token) (h : Lexes rest ts) :
    Lexes (GoRune.rune ']' :: rest) (Token.rbrack :: ts) := by
  intro f hf
  cases f with
  | zero => simp at hf
  | succ f =>
    simp only [List.length_cons] at hf
    simp [lex, h f (by omega)]

theorem Lexes_lbrace (rest : GoString) (ts : List Token) (h : Lexes rest ts) :
    Lexes (GoRune.rune '{' :: rest) (Token.lbrace :: ts) := by
  intro f hf
  cases f with
  | zero => simp at hf
  | succ f =>
    simp only [List.length_cons] at hf
    simp [lex, h f (by omega)]

theorem Lexes_rbrace (rest : GoString) (ts : List Token) (h : Lexes rest ts) :
    Lexes (GoRune.rune '}' :: rest) (Token.rbrace :: ts) := by
  intro f hf
  cases f with
  | zero => simp at hf
  | succ f =>
    simp only [List.length_cons] at hf
    simp [lex, h f (by omega)]

theorem Lexes_comma (rest : GoString) (ts : List Token) (h : Lexes rest ts) :
    Lexes (GoRune.rune ',' :: rest) (Token.comma :: ts) := by
  intro f hf
  cases f with
  | zero => simp at hf
  | succ f =>
    simp only [List.length_cons] at hf
    simp [lex, h f (by omega)]

theorem Lexes_colon (rest : GoString) (ts : List Token) (h : Lexes rest ts) :
    Lexes (GoRune.rune ':' :: rest) (Token.colon :: ts) := by
  intro f hf
  cases f with
  | zero => simp at hf
  | succ f =>
    simp only [List.length_cons] at hf
    simp [lex, h f (by omega)]

theorem Lexes_string (s : GoString) (rest : GoString) (ts : List Token) (h : Lexes rest ts) :
    Lexes (GoRune.rune '"' :: ((quotedBody s).map GoRune.rune ++ GoRune.rune '"' :: rest))
      (Token.str (s.map coerceRune) :: ts) := by
  intro f hf
  cases f with
  | zero => simp at hf
  | succ f =>
    simp only [List.length_cons, List.length_append, List.length_map] at hf
    have hlen := length_le_quotedBody s
    have hstr := lexString_quotedBody s f rest [] (by omega)
    simp [lex, hstr, h f (by omega)]

theorem spanRunes_append (p : Char → Bool) (l : List Char) (c : Char) (rest : GoString)
    (hl : ∀ x ∈ l, p x = true) (hc : p c = false) :
    spanRunes p (l.map GoRune.rune ++ GoRune.rune c :: rest) = (l, GoRune.rune c :: rest) := by
  induction l with
  | nil => simp [spanRunes, hc]
  | cons x xs ih =>
    have hx := hl x (List.mem_cons_self _ _)
    have hxs := ih (fun y hy => hl y (List.mem_cons_of_mem _ hy))
    simp [spanRunes, hx, hxs]

theorem Lexes_number (v : Int) (rest : GoString) (ts : List Token)
    (h : Lexes (GoRune.rune ',' :: rest) ts) :
    Lexes ((formatInt v).map GoRune.rune ++ GoRune.rune ',' :: rest)
      (Token.num (formatInt v) :: ts) := by
  have hvalid := validNumber_formatInt v
  have hall : ∀ x ∈ formatInt v, isNumberChar x = true := by
    intro x hx
    have hd := natDigits_isDigit (v.natAbs + 1) v.natAbs
    by_cases hv : v < 0
    · simp only [formatInt, hv, if_true, List.mem_cons] at hx
      rcases hx with hx | hx
      · subst hx; rfl
      · simp [isNumberChar, hd x hx]
    · simp only [formatInt, hv, if_false] at hx
      simp [isNumberChar, hd x hx]
  have hfirst : ∀ x, (formatInt v).head? = some x → x = '-' ∨ isDigit x = true := by
    intro x hx
    have hd := natDigits_isDigit (v.natAbs + 1) v.natAbs
    by_cases hv : v < 0
    · simp only [formatInt, hv, if_true, List.head?_cons, Option.some.injEq] at hx
      exact Or.inl hx.symm
    · simp only [formatInt, hv, if_false] at hx
      exact Or.inr (hd x (List.mem_of_mem_head? hx))
  have hne : formatInt v ≠ [] := by
    by_cases hv : v < 0
    · simp [formatInt, hv]
    · simpa [formatInt, hv] using natDigits_ne_nil (v.natAbs + 1) v.natAbs (by omega)
  obtain ⟨c, tail, hct⟩ := List.exists_cons_of_ne_nil hne
  rw [hct] at hvalid hall hfirst ⊢
  have hc := hfirst c rfl
  have hspan := spanRunes_append isNumberChar tail ',' rest
    (fun x hx => hall x (List.mem_cons_of_mem _ hx)) (by decide)
  intro f hf
  cases f with
  | zero => simp at hf
  | succ f =>
    simp only [List.map_cons, List.cons_append, List.length_cons, List.length_append,
      List.length_map] at hf
    have hrest := h f (by simp only [List.length_cons]; omega)
    have hnotspace : ¬ (c = ' ' ∨ c = '\t' ∨ c = '\r' ∨ c = '\n') := by
      rcases hc with rfl | hd
      · decide
      · intro hsp
        rcases hsp with rfl | rfl | rfl | rfl <;> exact absurd hd (by decide)
    have hnot : c ≠ '[' ∧ c ≠ ']' ∧ c ≠ '{' ∧ c ≠ '}' ∧ c ≠ ',' ∧ c ≠ ':' ∧ c ≠ '"' := by
      rcases hc with rfl | hd
      · decide
      · refine ⟨?_, ?_, ?_, ?_, ?_, ?_, ?_⟩ <;>
          (intro heq; rw [heq] at hd; exact absurd hd (by decide))
    have hc2 : c = '-' ∨ isDigit c = true := hc
    have hspan2 : spanRunes isNumberChar
        ((List.map GoRune.rune tail).append (GoRune.rune ',' :: rest)) =
        (tail, GoRune.rune ',' :: rest) := hspan
    simp only [List.map_cons, List.cons_append, lex, hnotspace, hnot.1, hnot.2.1, hnot.2.2.1,
      hnot.2.2.2.1, hnot.2.2.2.2.1, hnot.2.2.2.2.2.1, hnot.2.2.2.2.2.2, if_false, hc2, if_true,
      hspan2, hvalid, hrest, Option.map_some']

theorem Lexes_true (rest : GoString) (ts : List Token)
    (h : Lexes (GoRune.rune '\n' :: rest) ts) :
    Lexes (GoRune.rune 't' :: GoRune.rune 'r' :: GoRune.rune 'u' :: GoRune.rune 'e' ::
      GoRune.rune '\n' :: rest) (Token.true :: ts) := by
  intro f hf
  cases f with
  | zero => simp at hf
  | succ f =>
    simp only [List.length_cons] at hf
    have hrest := h f (by simp only [List.length_cons]; omega)
    have hspan : spanRunes isLetter (GoRune.rune 'r' :: GoRune.rune 'u' :: GoRune.rune 'e' ::
        GoRune.rune '\n' :: rest) = (['r', 'u', 'e'], GoRune.rune '\n' :: rest) := rfl
    have hlet : isLetter 't' = true := rfl
    have hdig : isDigit 't' = false := rfl
    simp [lex, hspan, hrest, hlet, hdig]

theorem Lexes_false (rest : GoString) (ts : List Token)
    (h : Lexes (GoRune.rune '\n' :: rest) ts) :
    Lexes (GoRune.rune 'f' :: GoRune.rune 'a' :: GoRune.rune 'l' :: GoRune.rune 's' ::
      GoRune.rune 'e' :: GoRune.rune '\n' :: rest) (Token.false :: ts) := by
  intro f hf
  cases f with
  | zero => simp at hf
  | succ f =>
    simp only [List.length_cons] at hf
    have hrest := h f (by simp only [List.length_cons]; omega)
    have hspan : spanRunes isLetter (GoRune.rune 'a' :: GoRune.rune 'l' :: GoRune.rune 's' ::
        GoRune.rune 'e' :: GoRune.rune '\n' :: rest) =
        (['a', 'l', 's', 'e'], GoRune.rune '\n' :: rest) := rfl
    have hlet : isLetter 'f' = true := rfl
    have hdig : isDigit 'f' = false := rfl
    simp [lex, hspan, hrest, hlet, hdig]

theorem Lexes_marshalTask (t : Task) (rest : GoString) (ts : List Token) (h : Lexes rest ts) :
    Lexes ((marshalTask t).map GoRune.rune ++ rest) (taskTokens t ++ ts) := by
  have e1 := Lexes_rbrace rest ts h
  have e2 := Lexes_space ' ' (Or.inl rfl) _ _ e1
  have e3 := Lexes_space ' ' (Or.inl rfl) _ _ e2
  have e4 := Lexes_space '\n' (Or.inr (Or.inr (Or.inr rfl))) _ _ e3
  have hbool : Lexes ((if t.Completed then "true".data else "false".data).map GoRune.rune ++
      (GoRune.rune '\n' :: GoRune.rune ' ' :: GoRune.rune ' ' :: GoRune.rune '}' :: rest))
      ((if t.Completed then Token.true else Token.false) :: Token.rbrace :: ts) := by
    cases t.Completed with
    | true => exact Lexes_true _ _ e4
    | false => exact Lexes_false _ _ e4
  have c1 := Lexes_space ' ' (Or.inl rfl) _ _ hbool
  have c2 := Lexes_colon _ _ c1
  have c3 := Lexes_string (go "completed") _ _ c2
  have c4 := Lexes_space ' ' (Or.inl rfl) _ _ c3
  have c5 := Lexes_space ' ' (Or.inl rfl) _ _ c4
  have c6 := Lexes_space ' ' (Or.inl rfl) _ _ c5
  have c7 := Lexes_space ' ' (Or.inl rfl) _ _ c6
  have c8 := Lexes_space '\n' (Or.inr (Or.inr (Or.inr rfl))) _ _ c7
  have c9 := Lexes_comma _ _ c8
  have d1 := Lexes_string t.Description _ _ c9
  have d2 := Lexes_space ' ' (Or.inl rfl) _ _ d1
  have d3 := Lexes_colon _ _ d2
  have d4 := Lexes_string (go "description") _ _ d3
  have d5 := Lexes_space ' ' (Or.inl rfl) _ _ d4
  have d6 := Lexes_space ' ' (Or.inl rfl) _ _ d5
  have d7 := Lexes_space ' ' (Or.inl rfl) _ _ d6
  have d8 := Lexes_space ' ' (Or.inl rfl) _ _ d7
  have d9 := Lexes_space '\n' (Or.inr (Or.inr (Or.inr rfl))) _ _ d8
  have i1 := Lexes_number t.ID _ _ (Lexes_comma _ _ d9)
  have i2 := Lexes_space ' ' (Or.inl rfl) _ _ i1
  have i3 := Lexes_colon _ _ i2
  have i4 := Lexes_string (go "id") _ _ i3
  have i5 := Lexes_space ' ' (Or.inl rfl) _ _ i4
  have i6 := Lexes_space ' ' (Or.inl rfl) _ _ i5
  have i7 := Lexes_space ' ' (Or.inl rfl) _ _ i6
  have i8 := Lexes_space ' ' (Or.inl rfl) _ _ i7
  have i9 := Lexes_space '\n' (Or.inr (Or.inr (Or.inr rfl))) _ _ i8
  have i10 := Lexes_lbrace _ _ i9
  simp only [marshalTask, appendString, List.map_append, List.append_assoc, List.map_cons,
    List.cons_append, List.map_nil, List.nil_append]
  exact i10

theorem Lexes_marshalElems (tasks : List Task) (rest : GoString) (ts : List Token)
    (h : Lexes rest ts) :
    Lexes ((marshalElems tasks).map GoRune.rune ++ rest) (elemsTokens tasks ++ ts) := by
  induction tasks with
  | nil => simpa [marshalElems, elemsTokens] using h
  | cons t us ih =>
    cases us with
    | nil => simpa [marshalElems, elemsTokens] using Lexes_marshalTask t rest ts h
    | cons u us =>
      have e1 := Lexes_space ' ' (Or.inl rfl) _ _ ih
      have e2 := Lexes_space ' ' (Or.inl rfl) _ _ e1
      have e3 := Lexes_space '\n' (Or.inr (Or.inr (Or.inr rfl))) _ _ e2
      have e4 := Lexes_comma _ _ e3
      have e5 := Lexes_marshalTask t _ _ e4
      simp only [marshalElems, elemsTokens, List.map_append, List.append_assoc, List.cons_append]
      exact e5

theorem Lexes_MarshalIndent (t : Task) (us : List Task) :
    Lexes (MarshalIndent (t :: us)) (Token.lbrack :: (elemsTokens (t :: us) ++ [Token.rbrack])) := by
  have e1 := Lexes_rbrack [] [] Lexes_nil
  have e2 := Lexes_space '\n' (Or.inr (Or.inr (Or.inr rfl))) _ _ e1
  have e3 := Lexes_marshalElems (t :: us) _ _ e2
  have e4 := Lexes_space ' ' (Or.inl rfl) _ _ e3
  have e5 := Lexes_space ' ' (Or.inl rfl) _ _ e4
  have e6 := Lexes_space '\n' (Or.inr (Or.inr (Or.inr rfl))) _ _ e5
  have e7 := Lexes_lbrack _ _ e6
  simp only [MarshalIndent, List.map_append, List.append_assoc]
  exact e7

/-! ## Parsing the tokens -/

theorem parseValue_taskTokens (t : Task) (depth : Nat) (rest : List Token) :
    parseValue (depth + 2) (taskTokens t ++ rest) = some (taskJson t, rest) := by
  cases hc : t.Completed <;>
    simp [taskTokens, taskJson, parseValue, parseMembers, hc]

theorem parseElems_elemsTokens (tasks : List Task) (hne : tasks ≠ []) (depth n : Nat)
    (hn : tasks.length ≤ n) (rest : List Token) :
    parseElems (parseValue (depth + 2)) n (elemsTokens tasks ++ Token.rbrack :: rest) =
      some (tasks.map taskJson, rest) := by
  induction tasks generalizing n with
  | nil => exact absurd rfl hne
  | cons t us ih =>
    cases n with
    | zero => simp at hn
    | succ n =>
      cases us with
      | nil =>
        simp only [elemsTokens, parseElems, parseValue_taskTokens]
        simp
      | cons u us =>
        have hrec := ih (by simp) n (by simpa using hn)
        simp only [elemsTokens, List.append_assoc, List.cons_append, parseElems,
          parseValue_taskTokens] at hrec ⊢
        simp only [hrec]
        simp

theorem elemsTokens_length (tasks : List Task) : tasks.length ≤ (elemsTokens tasks).length := by
  induction tasks with
  | nil => simp
  | cons t us ih =>
    cases us with
    | nil => simp [elemsTokens, taskTokens]
    | cons u us =>
      simp only [elemsTokens, List.length_append, List.length_cons] at ih ⊢
      omega

theorem parseValue_array (t : Task) (us : List Task) :
    parseValue 10001 (Token.lbrack :: (elemsTokens (t :: us) ++ [Token.rbrack])) =
      some (Json.arr ((t :: us).map taskJson), []) := by
  have hlen := elemsTokens_length (t :: us)
  have hparse := parseElems_elemsTokens (t :: us) (by simp) 9998
    (elemsTokens (t :: us) ++ [Token.rbrack]).length
    (by simp only [List.length_append]; omega) []
  have hhead : ∃ rest, elemsTokens (t :: us) ++ [Token.rbrack] = Token.lbrace :: rest := by
    cases us with
    | nil => exact ⟨_, rfl⟩
    | cons u us => exact ⟨_, rfl⟩
  obtain ⟨rest, hrest⟩ := hhead
  show parseValue (10000 + 1) _ = _
  rw [hrest] at hparse ⊢
  rw [parseValue]
  · simp only [hparse]
    simp
  · intro rest1 hcontra
    simp at hcontra

theorem decodeTask_taskJson (t : Task) (h1 : minInt ≤ t.ID) (h2 : t.ID ≤ maxInt) :
    decodeTask (taskJson t) = some (coerceTask t) := by
  have hid : keyMatches "id".data (go "id") = true := by decide
  have hd1 : keyMatches "id".data (go "description") = false := by decide
  have hd2 : keyMatches "description".data (go "description") = true := by decide
  have hc1 : keyMatches "id".data (go "completed") = false := by decide
  have hc2 : keyMatches "description".data (go "completed") = false := by decide
  have hc3 : keyMatches "completed".data (go "completed") = true := by decide
  simp [taskJson, decodeTask, decodeMembers, decodeMember, hid, hd1, hd2, hc1, hc2, hc3,
    storeID, storeDescription, storeCompleted, parseInt_formatInt t.ID h1 h2, coerceTask]

theorem decodeElems_taskJson (tasks : List Task)
    (h : ∀ t ∈ tasks, minInt ≤ t.ID ∧ t.ID ≤ maxInt) :
    decodeElems (tasks.map taskJson) = some (tasks.map coerceTask) := by
  induction tasks with
  | nil => rfl
  | cons t us ih =>
    have ht := h t (List.mem_cons_self _ _)
    have hus := ih (fun u hu => h u (List.mem_cons_of_mem _ hu))
    simp [decodeElems, decodeTask_taskJson t ht.1 ht.2, hus]

/-- What `json.Unmarshal` reads from what `json.MarshalIndent` wrote: the same tasks, with
the descriptions coerced to valid UTF-8. -/
theorem Unmarshal_MarshalIndent (tasks : List Task)
    (h : ∀ t ∈ tasks, minInt ≤ t.ID ∧ t.ID ≤ maxInt) :
    Unmarshal (MarshalIndent tasks) = Except.ok (tasks.map coerceTask) := by
  cases tasks with
  | nil => rfl
  | cons t us =>
    have hlex := Lexes_MarshalIndent t us _ (Nat.lt_succ_self _)
    simp only [Unmarshal, hlex, parseValue_array, decodeElems_taskJson (t :: us) h]

theorem coerceTask_valid (t : Task) (h : validUTF8 t.Description = true) :
    coerceTask t = t := by
  have hmap : t.Description.map coerceRune = t.Description := by
    have hall : ∀ r ∈ t.Description, coerceRune r = r := by
      intro r hr
      have hr2 := List.all_eq_true.mp h r hr
      cases r with
      | rune c => rfl
      | byte b => simp at hr2
    calc t.Description.map coerceRune = t.Description.map id := List.map_congr_left hall
      _ = t.Description := List.map_id _
  cases t with
  | mk i d c => simp only [coerceTask] at hmap ⊢; rw [hmap]

/-! ## Storage -/

/-- C8 (as amended). For every collection `c` of tasks (their ids being values of `int`):
if `SaveTasks` succeeds and the file can be read, `LoadTasks` succeeds and returns the
tasks of `c` in the same order, with the same ids and completion flags, and with the same
descriptions except that every byte that is not valid UTF-8 has become U+FFFD; so it
returns `c` itself when the descriptions of `c` are valid UTF-8. -/
theorem save_then_load (fs fs2 : FileSystem) (path : String) (c : List Task)
    (hids : ∀ t ∈ c, minInt ≤ t.ID ∧ t.ID ≤ maxInt)
    (hsave : SaveTasks fs path c = some fs2) (hread : fs.readFails path = false) :
    LoadTasks fs2 path = Except.ok (c.map coerceTask) ∧
    ((∀ t ∈ c, validUTF8 t.Description = true) → c.map coerceTask = c) := by
  constructor
  · unfold SaveTasks WriteFile at hsave
    split at hsave
    · cases hsave
    · injection hsave with hfs
      subst hfs
      simp only [LoadTasks, ReadFile, if_true, hread]
      exact Unmarshal_MarshalIndent c hids
  · intro hvalid
    calc c.map coerceTask = c.map id :=
          List.map_congr_left (fun t ht => coerceTask_valid t (hvalid t ht))
      _ = c := List.map_id _

/-- C8, on a disk without files and two tasks whose descriptions hold quotation marks,
angle brackets and a new line. -/
theorem save_then_load_witness :
    (∀ t ∈ [(⟨1, go "buy milk", false⟩ : Task), ⟨-2, go "say \"hi\" <now>\n", true⟩],
      minInt ≤ t.ID ∧ t.ID ≤ maxInt) ∧
    (∀ t ∈ [(⟨1, go "buy milk", false⟩ : Task), ⟨-2, go "say \"hi\" <now>\n", true⟩],
      validUTF8 t.Description = true) ∧
    ∃ fs2, SaveTasks emptyDisk "tasks.json"
        [⟨1, go "buy milk", false⟩, ⟨-2, go "say \"hi\" <now>\n", true⟩] = some fs2 ∧
      LoadTasks fs2 "tasks.json" =
        Except.ok [⟨1, go "buy milk", false⟩, ⟨-2, go "say \"hi\" <now>\n", true⟩] := by
  have h := save_then_load emptyDisk _ "tasks.json"
    [⟨1, go "buy milk", false⟩, ⟨-2, go "say \"hi\" <now>\n", true⟩] (by decide) rfl rfl
  refine ⟨by decide, by decide, _, rfl, ?_⟩
  rw [← h.2 (by decide)]
  exact h.1

/-- C8 fails as stated. The input line `add` followed by the single byte `0xFF` makes the
loop hold a task whose description is that byte; the description is saved as the escape of
U+FFFD and loaded as the character U+FFFD, so the loaded collection differs from the saved
one. And when the file can be written but not read, `SaveTasks` succeeds and `LoadTasks`
fails. -/
theorem save_then_load_differs :
    (loopBody [] (go "add " ++ [GoRune.byte 255] ++ go "\n")).tasks =
      [⟨1, [GoRune.byte 255], false⟩] ∧
    (∃ fs2, SaveTasks emptyDisk "tasks.json" [⟨1, [GoRune.byte 255], false⟩] = some fs2 ∧
      LoadTasks fs2 "tasks.json" = Except.ok [⟨1, [GoRune.rune replacementChar], false⟩]) ∧
    ([⟨1, [GoRune.rune replacementChar], false⟩] : List Task) ≠
      [⟨1, [GoRune.byte 255], false⟩] ∧
    (∃ fs2, SaveTasks writeOnlyDisk "tasks.json" [] = some fs2 ∧
      LoadTasks fs2 "tasks.json" = Except.error LoadError.readFailed) :=
  ⟨by decide, ⟨_, rfl, rfl⟩, by decide, ⟨_, rfl, rfl⟩⟩

end Todo
